import Mathlib

/-!
Verification of the OpenClaw streaming tag-enforcement core.

This file shallow-embeds, at the character level, the tag scanner
(`stripBlockTags`), the malformed-tag repairer
(`repairMalformedReasoningTags`), the finalize/dedup passes, the
non-conforming-output handler, the key-rotation stream wrapper, the
compaction-retry coordinator, the idle-reminder fire handler and the
thinking-block droppers, and proves the frozen claims about them.

Strings are modelled as `List Char`.  The JavaScript regular expressions
used by the source are modelled by hand-written matchers that implement
the exact patterns (`<\s*(\/?)\s*(?:think(?:ing)?|thought|antthinking)\s*>`,
`<\s*(\/?)\s*final\s*>`, and the three repair patterns), with JS `\s`
modelled by the common whitespace characters (space, tab, LF, CR, VT, FF)
and the `i` flag modelled by ASCII lower-casing; the tags the claims are
about only use plain spaces and ASCII letters, where the models agree
exactly with JS.
-/

/-- Whitespace test for the JS `\s` class (common subset: space, tab,
LF, CR, VT, FF). -/
def isWsChar (c : Char) : Bool :=
  [' ', '\t', '\n', '\r', Char.ofNat 11, Char.ofNat 12].contains c

/-- ASCII lower-casing, modelling the `i` regex flag on the ASCII tag
names used by the source patterns. -/
def lcc (c : Char) : Char :=
  if 'A' ≤ c ∧ c ≤ 'Z' then Char.ofNat (c.toNat + 32) else c

/-- Greedy `\s*`: drop leading whitespace. -/
def skipWs : List Char → List Char
  | [] => []
  | c :: r => if isWsChar c then skipWs r else c :: r

/-- Case-insensitive literal: strip the (lower-case) pattern `p` from the
front of `s`, returning the rest on success. -/
def stripCI : List Char → List Char → Option (List Char)
  | [], s => some s
  | _ :: _, [] => none
  | p :: ps, c :: cs => if lcc c = p then stripCI ps cs else none

/-- Expect a literal `>`. -/
def expectGt : List Char → Option (List Char)
  | [] => none
  | c :: r => if c = '>' then some r else none

/-- Try each alternative tag name (in regex backtracking order), each
followed by `\s*>`; return the rest after `>` for the first success. -/
def nameTail : List (List Char) → List Char → Option (List Char)
  | [], _ => none
  | n :: rest, s =>
    match stripCI n s with
    | some r =>
      match expectGt (skipWs r) with
      | some r2 => some r2
      | none => nameTail rest s
    | none => nameTail rest s

/-- Alternatives of `think(?:ing)?|thought|antthinking` in backtracking
order (greedy `(?:ing)?` first). -/
def thinkNames : List (List Char) :=
  ["thinking".data, "think".data, "thought".data, "antthinking".data]

/-- Matcher for `THINKING_TAG_SCAN_RE = /<\s*(\/?)\s*(?:think(?:ing)?|thought|antthinking)\s*>/gi`
at the head of `s`; returns `(isClose, rest)`. -/
def matchThinkTag (s : List Char) : Option (Bool × List Char) :=
  match s with
  | [] => none
  | c :: r1 =>
    if c = '<' then
      match skipWs r1 with
      | [] => none
      | c2 :: rr =>
        if c2 = '/' then
          match nameTail thinkNames (skipWs rr) with
          | some rest => some (true, rest)
          | none => none
        else
          match nameTail thinkNames (c2 :: rr) with
          | some rest => some (false, rest)
          | none => none
    else none

/-- Matcher for `FINAL_TAG_SCAN_RE = /<\s*(\/?)\s*final\s*>/gi` at the
head of `s`. -/
def matchFinalTag (s : List Char) : Option (Bool × List Char) :=
  match s with
  | [] => none
  | c :: r1 =>
    if c = '<' then
      match skipWs r1 with
      | [] => none
      | c2 :: rr =>
        if c2 = '/' then
          match nameTail ["final".data] (skipWs rr) with
          | some rest => some (true, rest)
          | none => none
        else
          match nameTail ["final".data] (c2 :: rr) with
          | some rest => some (false, rest)
          | none => none
    else none

/-- Matcher for the repairer opening pattern
`/<\s*(?:think(?:ing)?|thought|antthinking)\s*>/i` (no `/` allowed). -/
def matchThinkOpenRep (s : List Char) : Option (List Char) :=
  match s with
  | [] => none
  | c :: r1 => if c = '<' then nameTail thinkNames (skipWs r1) else none

/-- Matcher for the repairer closing pattern
`/<\s*\/\s*(?:think(?:ing)?|thought|antthinking)\s*>/i`. -/
def matchThinkCloseRep (s : List Char) : Option (List Char) :=
  match s with
  | [] => none
  | c :: r1 =>
    if c = '<' then
      match skipWs r1 with
      | [] => none
      | c2 :: rr => if c2 = '/' then nameTail thinkNames (skipWs rr) else none
    else none

/-- JS `\w` (word character) for the `\b` boundary check. -/
def isWordChar (c : Char) : Bool :=
  (decide ('a' ≤ c) && decide (c ≤ 'z')) ||
    (decide ('A' ≤ c) && decide (c ≤ 'Z')) ||
    (decide ('0' ≤ c) && decide (c ≤ '9')) || (c = '_')

/-- Greedy `[^<>]*`: drop characters until `<`, `>` or the end. -/
def dropNonAngle : List Char → List Char
  | [] => []
  | c :: r => if c = '<' ∨ c = '>' then c :: r else dropNonAngle r

/-- Word-boundary check of `\b` after `final`: the next character (if
any) must not be a word character. -/
def bOkGo (r : List Char) : Bool :=
  match r with
  | [] => true
  | c :: _ => !(isWordChar c)

/-- Matcher for the repairer final-open pattern `/<\s*final\b[^<>]*>/i`. -/
def matchFinalOpenRep (s : List Char) : Option (List Char) :=
  match s with
  | [] => none
  | c :: r1 =>
    if c = '<' then
      match stripCI "final".data (skipWs r1) with
      | some r2 => if bOkGo r2 then expectGt (dropNonAngle r2) else none
      | none => none
    else none

/-- One step of `String.prototype.matchAll`: scan left to right, jumping
over each match (non-overlapping), advancing one character on failure.
`fuel` bounds the recursion (`scanAll` supplies `s.length + 1`). -/
def scanGo (f : List Char → Option (Bool × List Char)) :
    Nat → Nat → List Char → List (Nat × Nat × Bool)
  | 0, _, _ => []
  | fuel + 1, i, s =>
    match f s with
    | some br =>
      (i, s.length - br.2.length, br.1) :: scanGo f fuel (i + (s.length - br.2.length)) br.2
    | none =>
      match s with
      | [] => []
      | _ :: t => scanGo f fuel (i + 1) t

/-- All matches of `f` in `s` as `(index, length, isClose)` triples,
mirroring `matchAll` with a `g` regex. -/
def scanAll (f : List Char → Option (Bool × List Char)) (s : List Char) :
    List (Nat × Nat × Bool) :=
  scanGo f (s.length + 1) 0 s

/-- First match of a rest-returning matcher (JS `String.prototype.match`
with a non-global regex): `(index, length)`. -/
def srch (g : List Char → Option (List Char)) (s : List Char) : Option (Nat × Nat) :=
  match scanAll (fun t => (g t).map (fun r => (false, r))) s with
  | [] => none
  | (i, l, _) :: _ => some (i, l)

/-- Embedding of `repairMalformedReasoningTags` (src/shared/text/reasoning-tags.ts):
insert a synthetic `</think>` immediately before the first `<final>` when
an opening thinking tag occurs before it with no closing thinking tag in
between; otherwise return the input unchanged. -/
def repairMalformedReasoningTags (t : List Char) : List Char :=
  if t = [] then t
  else
    match srch matchThinkOpenRep t, srch matchFinalOpenRep t with
    | some (ti, tl), some (fi, _) =>
      if fi ≤ ti then t
      else
        let between := (t.drop (ti + tl)).take (fi - (ti + tl))
        if (srch matchThinkCloseRep between).isSome then t
        else t.take fi ++ "</think>".data ++ t.drop fi
    | _, _ => t

/-- Pass 1 of the thinking scan: detect orphaned close tags (a close with
no preceding open in the chunk, `sawOpen` starting from the carried-over
`state.thinking`); returns the end index just past the last orphan. -/
def orphanGo : Bool → Option Nat → List (Nat × Nat × Bool) → Option Nat
  | _, acc, [] => acc
  | sawOpen, acc, (i, l, isC) :: ms =>
    let sawOpen' := if isC then sawOpen else true
    let acc' := if isC ∧ !sawOpen then some (i + l) else acc
    orphanGo sawOpen' acc' ms

/-- Pass 2 of the thinking scan: walk the matches, copying text to the
output only while outside a thinking span. -/
def stripGo (s : List Char) : Nat → Bool → List Char → List (Nat × Nat × Bool) →
    List Char × Bool
  | lastIdx, inT, acc, [] => (if inT then acc else acc ++ s.drop lastIdx, inT)
  | lastIdx, inT, acc, (i, l, isC) :: ms =>
    let acc' := if inT then acc else acc ++ (s.drop lastIdx).take (i - lastIdx)
    stripGo s (i + l) (!isC) acc' ms

/-- Enforcement-mode final pass: emit text only while inside an
open-but-unclosed final span; track `everInFinal`. -/
def finGo (s : List Char) : Nat → Bool → Bool → List Char → List (Nat × Nat × Bool) →
    List Char × Bool × Bool
  | lastIdx, inF, ever, acc, [] => (if inF then acc ++ s.drop lastIdx else acc, inF, ever)
  | lastIdx, inF, ever, acc, (i, l, isC) :: ms =>
    if !inF ∧ !isC then finGo s (i + l) true true acc ms
    else if inF ∧ isC then
      finGo s (i + l) false ever (acc ++ (s.drop lastIdx).take (i - lastIdx)) ms
    else finGo s lastIdx inF ever acc ms

/-- Hardened cleanup pass: strip every remaining final-tag match. -/
def cleanGo (s : List Char) : Nat → List Char → List (Nat × Nat × Bool) → List Char
  | lastIdx, acc, [] => acc ++ s.drop lastIdx
  | lastIdx, acc, (i, l, _) :: ms =>
    cleanGo s (i + l) (acc ++ (s.drop lastIdx).take (i - lastIdx)) ms

/-- Carried-over scanner state (`state.thinking` / `state.final`). -/
structure BlockSt where
  thinking : Bool
  final : Bool
deriving DecidableEq, Repr

/-- Embedding of `stripBlockTags` (pi-embedded-subscribe) specialised to
enforcement mode (`params.enforceFinalTag = true`).  In that mode the
source statically disables code-span detection (`useCodeSpans = false`,
so `codeSpans` is `null` and every `isInside` guard is skipped, and the
non-enforcement branch at line 450 is not taken); the `state.inlineCode`
field is then written but never read, so it is omitted from the state.
Returns the emitted text and the updated `{thinking, final}` state. -/
def stripBlockTags (text : List Char) (st : BlockSt) : List Char × BlockSt :=
  if text = [] then (text, st)
  else
    let rep := repairMalformedReasoningTags text
    let ms1 := scanAll matchThinkTag rep
    let orphanEnd := orphanGo st.thinking none ms1
    let thinkInput := match orphanEnd with | some e => rep.drop e | none => rep
    let inT0 := match orphanEnd with | some _ => false | none => st.thinking
    let ms2 := scanAll matchThinkTag thinkInput
    let pr := stripGo thinkInput 0 inT0 [] ms2
    let ms3 := scanAll matchFinalTag pr.1
    let fr := finGo pr.1 0 st.final st.final [] ms3
    let st' : BlockSt := { thinking := pr.2, final := fr.2.1 }
    if !fr.2.2 then ([], st')
    else
      let ms4 := scanAll matchFinalTag fr.1
      (cleanGo fr.1 0 [] ms4, st')

/-- Content block of a pi-ai assistant message (the fields the embedded
runner inspects). -/
inductive ABlock
  | textB (s : String)
  | thinkingB (s : String)
  | toolCallB (n : Nat)
deriving DecidableEq, Repr

/-- Assistant message as consumed by `checkNonConformingOutput`. -/
structure AssistantMsg where
  stopReason : String
  content : List ABlock
deriving DecidableEq, Repr

/-- Modelled from the spec: `extractAssistantText` (pi-embedded-utils, not
under src/) extracts the raw assistant text ignoring tag enforcement;
modelled as the newline-join of the text blocks. -/
def extractAssistantText (m : AssistantMsg) : String :=
  ⟨List.intercalate "\n".data
    (m.content.filterMap (fun b => match b with
      | ABlock.textB s => some s.data
      | _ => none))⟩

/-- Modelled from the spec: `isSilentReplyText` (auto-reply/tokens.ts, not
under src/) recognises the intentional silent-reply token. -/
def isSilentReplyText (t : String) : Bool :=
  t = "NO_REPLY"

/-- Minimum raw-text length for the non-conforming check (source constant). -/
def MIN_TEXT_LENGTH : Nat := 20

/-- Retry budget of the non-conforming handler (source constant). -/
def MAX_RETRIES : Nat := 3

/-- The fixed follow-up system prompt returned by the retry action. -/
def NON_CONFORMING_FOLLOWUP_PROMPT : String :=
  "[System: Your previous response was not visible to the user because " ++
  "it was not wrapped in the required tags. The user cannot see what you wrote. " ++
  "Please respond again using the correct format:\n" ++
  "- ALL internal reasoning MUST be inside `<think>...</think>`.\n" ++
  "- Only the final user-visible reply may appear inside `<final>...</final>`.\n" ++
  "- Only text inside `<final>` is shown to the user; everything else is discarded.\n" ++
  "- Format: `<think>reasoning here</think>` then `<final>reply here</final>`, with no other text.\n" ++
  "Example:\n" ++
  "<think>Short internal reasoning.</think>\n" ++
  "<final>Hey there! What would you like to do next?</final>\n" ++
  "Respond now with the correct format.]"

/-- Result of `checkNonConformingOutput`. -/
inductive NonConformingResult
  | retry (prompt : String)
  | fallback (text : String)
deriving DecidableEq, Repr

/-- Parameters of `checkNonConformingOutput`. -/
structure NonConfParams where
  enforceFinalTag : Bool
  retryCount : Nat
  aborted : Bool
  timedOut : Bool
  assistantTexts : List String
  didSendViaMessagingTool : Bool
  lastAssistant : Option AssistantMsg
deriving Repr

/-- Embedding of `checkNonConformingOutput`
(src/agents/pi-embedded-runner/run/types.ts, retry-count variant). -/
def checkNonConformingOutput (p : NonConfParams) : Option NonConformingResult :=
  if !p.enforceFinalTag ∨ p.aborted ∨ p.timedOut ∨ 0 < p.assistantTexts.length ∨
      p.didSendViaMessagingTool ∨
      ¬((p.lastAssistant.map AssistantMsg.stopReason) = some "stop") then
    none
  else
    match p.lastAssistant with
    | none => none
    | some m =>
      let rawText := (extractAssistantText m).trim
      if rawText.length ≤ MIN_TEXT_LENGTH ∨ isSilentReplyText rawText then none
      else if p.retryCount < MAX_RETRIES then
        some (NonConformingResult.retry NON_CONFORMING_FOLLOWUP_PROMPT)
      else some (NonConformingResult.fallback rawText)

/-- Maximum idle-reminder fire count (source constant in
src/infra/idle-reminder.ts). -/
def MAX_REMIND_COUNT : Nat := 1

/-- Idle-reminder per-session state (the fields the fire handler uses). -/
structure IdleSt where
  count : Nat
  lastTranscriptSize : Nat
deriving DecidableEq, Repr

/-- Outcome of the `sendSimulatedHeartbeat` body: normal completion,
completion that deleted its own `activeReminders` entry (idle-confirmed
paths), or a thrown exception (swallowed by the `try/catch`). -/
inductive BodyOut
  | ok
  | okDeletedSelf
  | threw
deriving DecidableEq, Repr

/-- Embedding of the idle-reminder fire handler `checkAndMaybeRemind`
(src/infra/idle-reminder.ts), parametric in the maximum fire count.
Environment reads are passed as arguments: `queueSize` is
`getQueueSize(CommandLane.Main)`, `hasNew`/`currentSize` the result of
`hasNewNonHeartbeatContent`, `body` the outcome of
`sendSimulatedHeartbeat` (a thrown body is caught and logged), and
`sizeAfter` the transcript size re-read after the body.  Returns the
`activeReminders` entry left for the session (none when deleted) and
whether a new timer was armed. -/
def checkAndMaybeRemindWith (maxRemind : Nat) (st : IdleSt) (queueSize : Nat)
    (hasNew : Bool) (currentSize : Nat) (body : BodyOut) (sizeAfter : Nat) :
    Option IdleSt × Bool :=
  if 0 < queueSize then (some st, true)
  else if hasNew then
    (some { lastTranscriptSize := currentSize, count := 0 }, true)
  else if maxRemind ≤ st.count then (none, false)
  else
    let st' : IdleSt := { count := st.count + 1, lastTranscriptSize := sizeAfter }
    if st'.count < maxRemind then
      (if body = BodyOut.okDeletedSelf then none else some st', true)
    else (none, false)

/-- The fire handler at the production maximum fire count. -/
def checkAndMaybeRemind : IdleSt → Nat → Bool → Nat → BodyOut → Nat →
    Option IdleSt × Bool :=
  checkAndMaybeRemindWith MAX_REMIND_COUNT

/-- Content block of an `AgentMessage` (the discriminants the droppers
inspect). -/
inductive CBlock
  | textB (s : String)
  | thinkingB (s : String)
  | otherB (n : Nat)
deriving DecidableEq, Repr

/-- Agent message: role plus content, where `none` models a non-array
`content` field (rejected by `isAssistantMessageWithContent`). -/
structure AgentMsg where
  role : String
  content : Option (List CBlock)
deriving DecidableEq, Repr

/-- Embedding of `isAssistantMessageWithContent`. -/
def isAssistantMessageWithContent (m : AgentMsg) : Bool :=
  decide (m.role = "assistant") && m.content.isSome

/-- Whether a content block is a thinking block. -/
def isThinkingBlock : CBlock → Bool
  | CBlock.thinkingB _ => true
  | _ => false

/-- The per-message content loop shared by both droppers: remove thinking
blocks, reporting whether any was removed (`changed`). -/
def dropThinkingFromContent : List CBlock → List CBlock × Bool
  | [] => ([], false)
  | b :: rest =>
    let pr := dropThinkingFromContent rest
    if isThinkingBlock b then (pr.1, true) else (b :: pr.1, pr.2)

/-- Per-message transformation of `dropThinkingBlocks`: strip thinking
blocks from an assistant message, substituting a single empty text block
when everything was removed. -/
def dropMsgThinking (msg : AgentMsg) : AgentMsg :=
  if isAssistantMessageWithContent msg then
    let content := msg.content.getD []
    let pr := dropThinkingFromContent content
    if pr.2 then
      { msg with content := some (if pr.1 = [] then [CBlock.textB ""] else pr.1) }
    else msg
  else msg

/-- Whether a message would be touched by `dropMsgThinking` (the source
`touched` flag accumulated over the loop). -/
def msgTouched (msg : AgentMsg) : Bool :=
  isAssistantMessageWithContent msg && (msg.content.getD []).any isThinkingBlock

/-- Embedding of `dropThinkingBlocks`: strip all thinking blocks from
assistant messages, returning the input list itself when nothing changed
(the source returns the original array reference). -/
def dropThinkingBlocks (messages : List AgentMsg) : List AgentMsg :=
  let touched := messages.any msgTouched
  let out := messages.map dropMsgThinking
  if touched then out else messages

/-- Index of the last message with role `user` (`-1` in the source is
modelled as `none`). -/
def lastUserIdx : List AgentMsg → Option Nat
  | [] => none
  | m :: rest =>
    match lastUserIdx rest with
    | some i => some (i + 1)
    | none => if m.role = "user" then some 0 else none

/-- Apply `dropMsgThinking` to the first `lu` messages only (the
historical part strictly before the last user message). -/
def dropBeforeIdx : Nat → List AgentMsg → List AgentMsg
  | _, [] => []
  | lu, m :: rest =>
    (if 0 < lu then dropMsgThinking m else m) :: dropBeforeIdx (lu - 1) rest

/-- Whether any of the first `lu` messages would be touched. -/
def touchedBeforeIdx : Nat → List AgentMsg → Bool
  | _, [] => false
  | lu, m :: rest => (decide (0 < lu) && msgTouched m) || touchedBeforeIdx (lu - 1) rest

/-- Embedding of `dropHistoricalThinkingBlocks`: strip thinking blocks
only from assistant messages strictly before the last user message,
returning the input unchanged when the boundary is missing or zero, or
when nothing changed. -/
def dropHistoricalThinkingBlocks (messages : List AgentMsg) : List AgentMsg :=
  match lastUserIdx messages with
  | none => messages
  | some lu =>
    if lu = 0 then messages
    else
      let touched := touchedBeforeIdx lu messages
      let out := dropBeforeIdx lu messages
      if touched then out else messages

/-- Modelled from the spec: `normalizeTextForComparison`
(pi-embedded-helpers, not under src/) folds whitespace and minor
formatting differences; modelled as lower-casing and collapsing
whitespace runs to single spaces (trimming the ends). -/
def normalizeTextForComparison (s : String) : String :=
  ⟨List.intercalate [' ']
    (((s.data.map lcc).splitOnP isWsChar).filter (fun w => w ≠ []))⟩

/-- Modelled from the spec: `isMessagingToolDuplicateNormalized`
(pi-embedded-helpers, not under src/) reports whether a non-empty
normalized candidate is contained in the given normalized sent texts. -/
def isMessagingToolDuplicateNormalized (t : String) (sent : List String) : Bool :=
  decide (t ≠ "") && sent.contains t

/-- JS `String.prototype.trimEnd`. -/
def trimEndStr (s : String) : String :=
  ⟨(s.data.reverse.dropWhile isWsChar).reverse⟩

/-- Whether `needle` occurs as a contiguous substring of `hay`. -/
def containsSub (needle hay : List Char) : Bool :=
  (List.range (hay.length + 1)).any (fun i => needle.isPrefixOf (hay.drop i))

/-- Modelled from the spec: `stripDowngradedToolCallText`
(pi-embedded-utils, not under src/) strips downgraded tool-call leakage
text such as bracketed `[Tool Call: ...]` markers; on text without such a
marker it returns the text unchanged.  `fuel` bounds the scan. -/
def stripDTGo : Nat → List Char → List Char
  | 0, s => s
  | fuel + 1, s =>
    if containsSub "[Tool Call:".data s then
      match s with
      | [] => []
      | c :: r =>
        if "[Tool Call:".data.isPrefixOf (c :: r) then
          stripDTGo fuel ((c :: r).dropWhile (fun d => d ≠ ']')).tail
        else c :: stripDTGo fuel r
    else s

/-- Modelled from the spec: see `stripDTGo`. -/
def stripDowngradedToolCallText (s : String) : String :=
  ⟨stripDTGo (s.data.length + 1) s.data⟩

/-- The subscription state fields read and written by the finalize and
block-chunk paths of `subscribeEmbeddedPiSession`. -/
structure SubSt where
  assistantTexts : List String
  assistantTextBaseline : Nat
  assistantMessageIndex : Nat
  lastAssistantTextMessageIndex : Int
  lastAssistantTextTrimmed : Option String
  lastAssistantTextNormalized : Option String
  lastBlockReplyText : Option String
  suppressBlockChunks : Bool
  blockState : BlockSt
  messagingToolSentTexts : List String
  messagingToolSentTextsNormalized : List String
deriving DecidableEq, Repr

/-- The initial subscription state (fields as set at subscribe time). -/
def initialSubSt : SubSt :=
  { assistantTexts := []
    assistantTextBaseline := 0
    assistantMessageIndex := 0
    lastAssistantTextMessageIndex := -1
    lastAssistantTextTrimmed := none
    lastAssistantTextNormalized := none
    lastBlockReplyText := none
    suppressBlockChunks := false
    blockState := { thinking := false, final := false }
    messagingToolSentTexts := []
    messagingToolSentTextsNormalized := [] }

/-- Embedding of `rememberAssistantText`. -/
def rememberAssistantText (st : SubSt) (text : String) : SubSt :=
  let normalized := normalizeTextForComparison text
  { st with
    lastAssistantTextMessageIndex := (st.assistantMessageIndex : Int)
    lastAssistantTextTrimmed := some (trimEndStr text)
    lastAssistantTextNormalized := if normalized ≠ "" then some normalized else none }

/-- Embedding of `shouldSkipAssistantText`. -/
def shouldSkipAssistantText (st : SubSt) (text : String) : Bool :=
  if st.lastAssistantTextMessageIndex ≠ (st.assistantMessageIndex : Int) then false
  else
    let trimmed := trimEndStr text
    if decide (trimmed ≠ "") && decide (some trimmed = st.lastAssistantTextTrimmed) then true
    else
      let normalized := normalizeTextForComparison text
      decide (normalized ≠ "") && decide (some normalized = st.lastAssistantTextNormalized)

/-- Embedding of `pushAssistantText`. -/
def pushAssistantText (st : SubSt) (text : String) : SubSt :=
  if text = "" then st
  else if shouldSkipAssistantText st text then st
  else rememberAssistantText { st with assistantTexts := st.assistantTexts ++ [text] } text

/-- Configuration bits of the subscription read by the finalize path. -/
structure SubCfg where
  includeReasoning : Bool
  hasOnBlockReply : Bool
deriving DecidableEq, Repr

/-- Embedding of `finalizeAssistantTexts` (pi-embedded-subscribe): skip a
final text already delivered by the most recent messaging-tool send,
otherwise merge or append it, then advance the baseline. -/
def finalizeAssistantTexts (cfg : SubCfg) (st : SubSt) (text : String)
    (addedDuringMessage chunkerHasBuffered : Bool) : SubSt :=
  if decide (text ≠ "") && decide (st.messagingToolSentTextsNormalized ≠ []) &&
      isMessagingToolDuplicateNormalized (normalizeTextForComparison text)
        [st.messagingToolSentTextsNormalized.getLastD ""] then
    { st with assistantTextBaseline := st.assistantTexts.length }
  else
    let st1 :=
      if cfg.includeReasoning && decide (text ≠ "") && !cfg.hasOnBlockReply then
        let st' :=
          if st.assistantTextBaseline < st.assistantTexts.length then
            rememberAssistantText
              { st with assistantTexts := st.assistantTexts.take st.assistantTextBaseline ++ [text] }
              text
          else pushAssistantText st text
        { st' with suppressBlockChunks := true }
      else if !addedDuringMessage && !chunkerHasBuffered && decide (text ≠ "") then
        pushAssistantText st text
      else st
    { st1 with assistantTextBaseline := st1.assistantTexts.length }

/-- Modelled from the spec: the messaging-tool lifecycle handler
(pi-embedded-subscribe.handlers, not under src/) records a send into the
committed sent-texts lists only when the tool call completes without
error; a failed send records nothing. -/
def recordMessagingToolResult (st : SubSt) (text : String) (isError : Bool) : SubSt :=
  if isError then st
  else
    { st with
      messagingToolSentTexts := st.messagingToolSentTexts ++ [text]
      messagingToolSentTextsNormalized :=
        st.messagingToolSentTextsNormalized ++ [normalizeTextForComparison text] }

/-- Embedding of `emitBlockChunk` (pi-embedded-subscribe), up to the
`assistantTexts` bookkeeping: clean the chunk through the tag scanner,
then suppress it when empty, identical to the previous block reply, a
duplicate of any committed messaging-tool send, or a repeat of the last
assistant text; otherwise record it.  The trailing `onBlockReply`
directive delivery does not touch any modelled state and is omitted. -/
def emitBlockChunk (st : SubSt) (text : String) : SubSt :=
  if st.suppressBlockChunks then st
  else
    let sres := stripBlockTags text.data st.blockState
    let st1 := { st with blockState := sres.2 }
    let chunk := trimEndStr (stripDowngradedToolCallText ⟨sres.1⟩)
    if chunk = "" then st1
    else if some chunk = st1.lastBlockReplyText then st1
    else if isMessagingToolDuplicateNormalized (normalizeTextForComparison chunk)
        st1.messagingToolSentTextsNormalized then st1
    else if shouldSkipAssistantText st1 chunk then st1
    else
      rememberAssistantText
        { st1 with
          lastBlockReplyText := some chunk
          assistantTexts := st1.assistantTexts ++ [chunk] }
        chunk

/-- Assistant-message stream event, with the error classification that
`isRetriableErrorEvent` computes (`isRateLimitErrorMessage` and
`isOverloadedErrorMessage` live in pi-embedded-helpers/errors, not under
src/, and are modelled by the `retriable` flag). -/
inductive KEvent
  | item (n : Nat)
  | errEv (retriable : Bool) (msg : String)
deriving DecidableEq, Repr

/-- Embedding of `isRetriableErrorEvent` (see `KEvent`). -/
def isRetriableErrorEvent : KEvent → Bool
  | KEvent.errEv r _ => r
  | _ => false

/-- Outcome of one underlying `streamFn` invocation: a consumed event
stream, or a synchronous throw / promise rejection with the given
rate-limit classification of its message. -/
inductive AttemptOutcome
  | stream (evs : List KEvent)
  | thrown (retriable : Bool) (msg : String)
deriving DecidableEq, Repr

/-- Embedding of `KeyRotationState` (stream-key-rotation.ts). -/
structure KeyRotationState where
  allKeysExhausted : Bool
  lastProfileId : Option String
  rotationIndex : Nat
deriving DecidableEq, Repr

/-- Embedding of `createKeyRotationState`. -/
def createKeyRotationState : KeyRotationState :=
  { allKeysExhausted := false, lastProfileId := none, rotationIndex := 0 }

/-- Result of one wrapped model call: the events pushed downstream, the
number of underlying `streamFn` invocations, the rotation state and the
cooldown set after the call. -/
structure RotResult where
  downstream : List KEvent
  calls : Nat
  state : KeyRotationState
  cooldowns : List String
deriving DecidableEq, Repr

/-- The synthetic all-keys-exhausted error message (source literal). -/
def exhaustedMsg : String :=
  "All API key profiles exhausted due to rate limiting (429). Falling back to next model."

/-- The candidate loop of `wrapStreamFnWithKeyRotation` (stream-key-rotation.ts
lines 109-273).  `remaining` counts the attempts left (`maxAttempts -
attempt`), `attempt` the current attempt index.  Candidates in cooldown
and candidates whose key resolution throws (`resolveKey` returns `none`)
are skipped without an underlying call.  Each real call consumes the next
entry of `outcomes`; a rate-limited attempt (a retriable error event in
the consumed stream, or a retriable throw) marks the candidate cooldown
(in-memory, as `setCooldownInMemory`) and continues; a clean stream is
replayed downstream and stops; a non-retriable throw emits one synthetic
error event and stops; an exhausted loop emits one synthetic exhausted
event and sets `allKeysExhausted`. -/
def rotGo (candidates : List (Option String))
    (resolveKey : Option String → Option (Option String))
    (outcomes : List AttemptOutcome) :
    Nat → Nat → KeyRotationState → List String → Nat → RotResult
  | 0, _, rs, cds, calls =>
    { downstream := [KEvent.errEv false exhaustedMsg]
      calls := calls
      state :=
        { rs with
          allKeysExhausted := true
          rotationIndex := (rs.rotationIndex + candidates.length) % candidates.length }
      cooldowns := cds }
  | remaining + 1, attempt, rs, cds, calls =>
    let cidx := (rs.rotationIndex + attempt) % candidates.length
    let cand := candidates.getD cidx none
    if (match cand with | some c => cds.contains c | none => false) then
      rotGo candidates resolveKey outcomes remaining (attempt + 1) rs cds calls
    else
      match resolveKey cand with
      | none => rotGo candidates resolveKey outcomes remaining (attempt + 1) rs cds calls
      | some _apiKey =>
        let rs1 := match cand with
          | some c => { rs with lastProfileId := some c }
          | none => rs
        match outcomes.getD calls (AttemptOutcome.stream []) with
        | AttemptOutcome.stream evs =>
          let events := evs.filter (fun e => !isRetriableErrorEvent e)
          if evs.any isRetriableErrorEvent then
            let cds' := match cand with | some c => c :: cds | none => cds
            rotGo candidates resolveKey outcomes remaining (attempt + 1) rs1 cds' (calls + 1)
          else
            { downstream := events
              calls := calls + 1
              state := { rs1 with rotationIndex := (cidx + 1) % candidates.length }
              cooldowns := cds }
        | AttemptOutcome.thrown r msg =>
          if r then
            let cds' := match cand with | some c => c :: cds | none => cds
            rotGo candidates resolveKey outcomes remaining (attempt + 1) rs1 cds' (calls + 1)
          else
            { downstream := [KEvent.errEv false msg]
              calls := calls + 1
              state := rs1
              cooldowns := cds }

/-- Embedding of one call through `wrapStreamFnWithKeyRotation` in the
rotating case (two or more candidates, rotation-safe model): reset the
exhaustion flag, then run the candidate loop for `maxAttempts =
profileCandidates.length` attempts. -/
def wrapStreamFnWithKeyRotation (candidates : List (Option String))
    (resolveKey : Option String → Option (Option String))
    (outcomes : List AttemptOutcome) (rs : KeyRotationState)
    (cds : List String) : RotResult :=
  rotGo candidates resolveKey outcomes candidates.length 0
    { rs with allKeysExhausted := false } cds 0

/-- Settled outcome of a compaction-wait promise. -/
inductive POut
  | resolvedP
  | rejectedAbort
deriving DecidableEq, Repr

/-- Embedding of the compaction-retry coordinator state
(pi-embedded-subscribe): the pending counter, the in-flight flag, the
unsubscribed flag, the identity of the currently open shared promise
(`compactionRetryPromise`, `none` when null), the history of settled
promises with their outcomes, and a fresh-id counter. -/
structure CoordSt where
  pendingCompactionRetry : Nat
  compactionInFlight : Bool
  unsubscribed : Bool
  current : Option Nat
  settled : List (Nat × POut)
  nextId : Nat
deriving DecidableEq, Repr

/-- Embedding of `ensureCompactionPromise`: lazily create the single
shared promise. -/
def ensureCompactionPromise (st : CoordSt) : CoordSt :=
  match st.current with
  | some _ => st
  | none => { st with current := some st.nextId, nextId := st.nextId + 1 }

/-- Embedding of `noteCompactionRetry`. -/
def noteCompactionRetry (st : CoordSt) : CoordSt :=
  ensureCompactionPromise
    { st with pendingCompactionRetry := st.pendingCompactionRetry + 1 }

/-- Embedding of `resolveCompactionRetry`: decrement the counter; when it
reaches zero with no compaction in flight, resolve and retire the shared
promise. -/
def resolveCompactionRetry (st : CoordSt) : CoordSt :=
  if st.pendingCompactionRetry = 0 then st
  else
    let st1 := { st with pendingCompactionRetry := st.pendingCompactionRetry - 1 }
    if st1.pendingCompactionRetry = 0 ∧ ¬st1.compactionInFlight then
      match st1.current with
      | some pid =>
        { st1 with settled := (pid, POut.resolvedP) :: st1.settled, current := none }
      | none => st1
    else st1

/-- Embedding of the compaction part of `unsubscribe`: mark unsubscribed
first, then reject (with an AbortError) and retire any open shared
promise.  The `abortCompaction` call is external I/O and not modelled. -/
def unsubscribeCoord (st : CoordSt) : CoordSt :=
  if st.unsubscribed then st
  else
    let st1 := { st with unsubscribed := true }
    match st1.current with
    | some pid =>
      { st1 with settled := (pid, POut.rejectedAbort) :: st1.settled, current := none }
    | none => st1

/-- What a `waitForCompactionRetry` call hands back to the awaiting
caller. -/
inductive WaitRes
  | rejectedAbortNow
  | shared (pid : Nat)
  | deferredMicrotask
  | resolvedNow
deriving DecidableEq, Repr

/-- Embedding of `waitForCompactionRetry`: reject immediately after
unsubscribe; hand out the shared promise while a compaction is pending or
in flight; otherwise return a fresh promise settled in a queued
microtask. -/
def waitForCompactionRetry (st : CoordSt) : CoordSt × WaitRes :=
  if st.unsubscribed then (st, WaitRes.rejectedAbortNow)
  else if st.compactionInFlight ∨ 0 < st.pendingCompactionRetry then
    let st1 := ensureCompactionPromise st
    (st1, WaitRes.shared (st1.current.getD 0))
  else (st, WaitRes.deferredMicrotask)

/-- Embedding of the queued microtask body of `waitForCompactionRetry`,
evaluated against the coordinator state at microtask time: reject if
unsubscribed meanwhile, tie to the shared promise if a compaction started
meanwhile, otherwise resolve. -/
def runWaitMicrotask (st : CoordSt) : CoordSt × WaitRes :=
  if st.unsubscribed then (st, WaitRes.rejectedAbortNow)
  else if st.compactionInFlight ∨ 0 < st.pendingCompactionRetry then
    let st1 := ensureCompactionPromise st
    (st1, WaitRes.shared (st1.current.getD 0))
  else (st, WaitRes.resolvedNow)

/-- Iterated `resolveCompactionRetry`. -/
def resolveIter : Nat → CoordSt → CoordSt
  | 0, st => st
  | k + 1, st => resolveIter k (resolveCompactionRetry st)

/-- Concrete subscription state after two successful messaging-tool
sends, first of "Alpha", then of "Beta". -/
def c8State : SubSt :=
  recordMessagingToolResult (recordMessagingToolResult initialSubSt "Alpha" false)
    "Beta" false

/-- Concatenation of a list of character lists. -/
def joinL : List (List Char) → List Char
  | [] => []
  | x :: xs => x ++ joinL xs

/-- Items of the logical assistant text: the four canonical tag markers
and raw text segments.  A chunk boundary that does not fall inside a tag
marker is exactly a boundary between items. -/
inductive Itm
  | oT
  | cT
  | oF
  | cF
  | sg (s : List Char)
deriving DecidableEq, Repr

/-- Rendering of an item to its character string. -/
def Itm.ren : Itm → List Char
  | Itm.oT => "<think>".data
  | Itm.cT => "</think>".data
  | Itm.oF => "<final>".data
  | Itm.cF => "</final>".data
  | Itm.sg s => s

/-- Rendering of an item list. -/
def renL (c : List Itm) : List Char :=
  joinL (c.map Itm.ren)

/-- Whether an item is a raw text segment. -/
def Itm.isSg : Itm → Bool
  | Itm.sg _ => true
  | _ => false

/-- A character list is tag-free when none of the five tag patterns of
the scanner and the repairer matches at any of its positions. -/
def tagFreeB (s : List Char) : Bool :=
  (List.range s.length).all (fun i =>
    (matchThinkTag (s.drop i)).isNone && (matchFinalTag (s.drop i)).isNone &&
      (matchThinkOpenRep (s.drop i)).isNone &&
      (matchThinkCloseRep (s.drop i)).isNone &&
      (matchFinalOpenRep (s.drop i)).isNone)

/-- A character list all of whose contiguous substrings are tag-free
(the well-formedness condition on the reasoning and reply texts). -/
def cleanStr (s : List Char) : Prop :=
  ∀ i k, tagFreeB ((s.drop i).take k) = true

/-- Bounded decidable version of `cleanStr`. -/
def cleanB (s : List Char) : Bool :=
  (List.range (s.length + 1)).all (fun i =>
    (List.range (s.length + 1)).all (fun k => tagFreeB ((s.drop i).take k)))

/-- A normalized chunk: every segment is tag-free and no two segments
are adjacent (adjacent raw pieces of one chunk can always be merged into
one segment without changing the rendered chunk). -/
def NormC : List Itm → Prop
  | [] => True
  | Itm.sg s :: c => tagFreeB s = true ∧ (c = [] ∨ (c.head?.map Itm.isSg) = some false) ∧ NormC c
  | _ :: c => NormC c

/-- The expected match list of a matcher over a rendered item list:
`itemM` gives, for the items the matcher matches in full, the `isClose`
flag. -/
def itemMsOf (itemM : Itm → Option Bool) (i : Nat) : List Itm → List (Nat × Nat × Bool)
  | [] => []
  | it :: c =>
    match itemM it with
    | some b => (i, (Itm.ren it).length, b) :: itemMsOf itemM (i + (Itm.ren it).length) c
    | none => itemMsOf itemM (i + (Itm.ren it).length) c

/-- Item-level behavior of the thinking-tag scan. -/
def thinkItemM : Itm → Option Bool
  | Itm.oT => some false
  | Itm.cT => some true
  | _ => none

/-- Item-level behavior of the final-tag scan. -/
def finalItemM : Itm → Option Bool
  | Itm.oF => some false
  | Itm.cF => some true
  | _ => none

/-- Phases of the logical text `<think> r </think> <final> f </final>`:
before the thinking open, inside thinking, between close-think and
open-final, inside final, and after the final close. -/
inductive Ph
  | p0
  | pT
  | pB
  | pF
  | pE
deriving DecidableEq, Repr

/-- The carried-over scanner state at each phase boundary. -/
def stOf : Ph → BlockSt
  | Ph.p0 => ⟨false, false⟩
  | Ph.pT => ⟨true, false⟩
  | Ph.pB => ⟨false, false⟩
  | Ph.pF => ⟨false, true⟩
  | Ph.pE => ⟨false, false⟩

/-- Valid paths through the item automaton of the logical text: from
phase `a` consuming the items `c` to phase `b`, with the thinking-phase
and final-phase states carrying the raw pieces still to be consumed.
Segment items carry their tag-freeness. -/
inductive CPath : Ph × List (List Char) × List (List Char) →
    List Itm → Ph × List (List Char) × List (List Char) → Prop
  | nil (a) : CPath a [] a
  | oT (rs fs c b) : CPath (Ph.pT, rs, fs) c b →
      CPath (Ph.p0, rs, fs) (Itm.oT :: c) b
  | sgT (s rs fs c b) : tagFreeB s = true → CPath (Ph.pT, rs, fs) c b →
      CPath (Ph.pT, s :: rs, fs) (Itm.sg s :: c) b
  | cT (fs c b) : CPath (Ph.pB, [], fs) c b →
      CPath (Ph.pT, [], fs) (Itm.cT :: c) b
  | oF (fs c b) : CPath (Ph.pF, [], fs) c b →
      CPath (Ph.pB, [], fs) (Itm.oF :: c) b
  | sgF (s fs c b) : tagFreeB s = true → CPath (Ph.pF, [], fs) c b →
      CPath (Ph.pF, [], s :: fs) (Itm.sg s :: c) b
  | cF (c b) : CPath (Ph.pE, [], []) c b →
      CPath (Ph.pF, [], []) (Itm.cF :: c) b

/-- The item sequence of the full logical text with the reasoning split
into the pieces `rs` and the reply into the pieces `fs`. -/
def itemsOf (rs fs : List (List Char)) : List Itm :=
  Itm.oT :: (rs.map Itm.sg ++ (Itm.cT :: Itm.oF :: (fs.map Itm.sg ++ [Itm.cF])))

/-- Feed the rendered chunks through the enforcement-mode scanner in
sequence, threading the carried-over state, and concatenate the
outputs. -/
def processChunks : BlockSt → List (List Itm) → List Char × BlockSt
  | st, [] => ([], st)
  | st, c :: rest =>
    let pr := stripBlockTags (renL c) st
    let rest' := processChunks pr.2 rest
    (pr.1 ++ rest'.1, rest'.2)

/-- Wrap a rest-returning matcher as an `(isClose, rest)` matcher; this is
the shape `srch` feeds to the scanner. -/
def wrapB (g : List Char → Option (List Char)) : List Char → Option (Bool × List Char) :=
  fun t => (g t).map (fun r => (false, r))

/-- Item-level behavior of the think-open repair matcher. -/
def torItemM : Itm → Option Bool
  | Itm.oT => some false
  | _ => none

/-- Item-level behavior of the think-close repair matcher. -/
def tcrItemM : Itm → Option Bool
  | Itm.cT => some false
  | _ => none

/-- Item-level behavior of the final-open repair matcher. -/
def forItemM : Itm → Option Bool
  | Itm.oF => some false
  | _ => none

/-- Items kept by pass 2 of the thinking scan: think tags are consumed and
toggle the inside-thinking flag; every other item is kept while outside a
thinking span and dropped while inside. -/
def keep : Bool → List Itm → List Itm
  | _, [] => []
  | _, Itm.oT :: c => keep true c
  | _, Itm.cT :: c => keep false c
  | inT, Itm.oF :: c => (if inT then [] else [Itm.oF]) ++ keep inT c
  | inT, Itm.cF :: c => (if inT then [] else [Itm.cF]) ++ keep inT c
  | inT, Itm.sg s :: c => (if inT then [] else [Itm.sg s]) ++ keep inT c

/-- The inside-thinking flag after the thinking pass. -/
def endT : Bool → List Itm → Bool
  | inT, [] => inT
  | _, Itm.oT :: c => endT true c
  | _, Itm.cT :: c => endT false c
  | inT, Itm.oF :: c => endT inT c
  | inT, Itm.cF :: c => endT inT c
  | inT, Itm.sg _ :: c => endT inT c

/-- Item-level output of the enforcement final pass: segments are emitted
exactly while inside an open-but-unclosed final span. -/
def finEmit : Bool → List Itm → List Char
  | _, [] => []
  | _, Itm.oF :: c => finEmit true c
  | _, Itm.cF :: c => finEmit false c
  | inF, Itm.sg s :: c => (if inF then s else []) ++ finEmit inF c
  | inF, Itm.oT :: c => finEmit inF c
  | inF, Itm.cT :: c => finEmit inF c

/-- The inside-final flag after the final pass. -/
def endFB : Bool → List Itm → Bool
  | inF, [] => inF
  | _, Itm.oF :: c => endFB true c
  | _, Itm.cF :: c => endFB false c
  | inF, Itm.sg _ :: c => endFB inF c
  | inF, Itm.oT :: c => endFB inF c
  | inF, Itm.cT :: c => endFB inF c

/-- Whether an item list contains a final-open tag (drives `everInFinal`). -/
def hasOF : List Itm → Bool
  | [] => false
  | Itm.oF :: _ => true
  | _ :: c => hasOF c

/-- Proper final-tag alternation: the item-list shapes the thinking pass
produces on a phase-valid chunk (no think items, opens and closes
alternating from the carried-over final flag). -/
inductive FPath : Bool → List Itm → Bool → Prop
  | nil (b) : FPath b [] b
  | oF (c b) : FPath true c b → FPath false (Itm.oF :: c) b
  | cF (c b) : FPath false c b → FPath true (Itm.cF :: c) b
  | sg (s inF c b) : FPath inF c b → FPath inF (Itm.sg s :: c) b

/-- Feed raw text chunks (character level) through the enforcement-mode
scanner in sequence, threading the carried-over state, and concatenate
the outputs. -/
def processStr : BlockSt → List (List Char) → List Char × BlockSt
  | st, [] => ([], st)
  | st, t :: rest =>
    let pr := stripBlockTags t st
    let r := processStr pr.2 rest
    (pr.1 ++ r.1, r.2)

example :
    (stripBlockTags "<think>r</think><final>Hello</final>".data ⟨false, false⟩).1 =
      "Hello".data := by decide

example :
    (stripBlockTags "<think>reasoning<final>Hello</final>".data ⟨false, false⟩).1 =
      "Hello".data := by decide

example :
    (stripBlockTags "nk>r</think><final>Hi</final>".data ⟨false, false⟩).1 =
      "Hi".data := by decide

/-- C4: `checkNonConformingOutput` returns `none` unless all
preconditions hold (enforcement on, not aborted, not timed out, empty
`assistantTexts`, no successful messaging-tool send, stop reason "stop",
raw trimmed text longer than `MIN_TEXT_LENGTH` and not a silent-reply
token); when they hold it returns the retry action with the fixed
follow-up prompt for `retryCount < MAX_RETRIES` and otherwise the
fallback action carrying the raw extracted text. -/
theorem spec_C4_nonConforming : ∀ p : NonConfParams,
    checkNonConformingOutput p =
      match p.lastAssistant with
      | none => none
      | some m =>
        if p.enforceFinalTag = true ∧ p.aborted = false ∧ p.timedOut = false ∧
            p.assistantTexts = [] ∧ p.didSendViaMessagingTool = false ∧
            m.stopReason = "stop" ∧
            ¬(((extractAssistantText m).trim).length ≤ MIN_TEXT_LENGTH) ∧
            isSilentReplyText ((extractAssistantText m).trim) = false then
          if p.retryCount < MAX_RETRIES then
            some (NonConformingResult.retry NON_CONFORMING_FOLLOWUP_PROMPT)
          else some (NonConformingResult.fallback ((extractAssistantText m).trim))
        else none := by
  intro p
  obtain ⟨e, rc, ab, tmo, ats, ds, la⟩ := p
  cases la with
  | none => simp [checkNonConformingOutput]
  | some m =>
    simp only [checkNonConformingOutput]
    cases e <;> cases ab <;> cases tmo <;> cases ds <;>
      by_cases hstop : m.stopReason = "stop" <;>
      by_cases hlen : ((extractAssistantText m).trim).length ≤ MIN_TEXT_LENGTH <;>
      by_cases hsil : isSilentReplyText ((extractAssistantText m).trim) = true <;>
      by_cases hat : ats = [] <;>
      simp_all [List.length_pos]

/-- C9: the idle-reminder fire handler re-arms identically whether the
simulated-heartbeat body completes or throws (the `try/catch` swallows
the exception before the unconditional count/re-arm logic), and on an
idle tick (no queued requests, no new activity) with the maximum fire
count not yet reached after this tick, a throwing body still re-arms the
timer. -/
theorem spec_C9_idleReminderRearm :
    ∀ (m : Nat) (st : IdleSt) (q cs sa : Nat) (hn : Bool),
      ((checkAndMaybeRemindWith m st q hn cs BodyOut.threw sa).2 =
        (checkAndMaybeRemindWith m st q hn cs BodyOut.ok sa).2) ∧
      (st.count + 1 < m →
        (checkAndMaybeRemindWith m st 0 hn cs BodyOut.threw sa).2 = true) := by
  intro m st q cs sa hn
  constructor
  · unfold checkAndMaybeRemindWith
    split_ifs <;> rfl
  · intro hm
    unfold checkAndMaybeRemindWith
    have h1 : ¬ m ≤ st.count := by omega
    have h2 : st.count + 1 < m := hm
    split_ifs <;> simp_all

/-- Witness for `spec_C9_idleReminderRearm` at a concrete instance. -/
theorem spec_C9_witness :
    ((checkAndMaybeRemindWith 2 ⟨0, 0⟩ 0 false 5 BodyOut.threw 7).2 =
      (checkAndMaybeRemindWith 2 ⟨0, 0⟩ 0 false 5 BodyOut.ok 7).2) ∧
    (checkAndMaybeRemindWith 2 ⟨0, 0⟩ 0 false 5 BodyOut.threw 7).2 = true := by
  refine ⟨(spec_C9_idleReminderRearm 2 ⟨0, 0⟩ 0 5 7 false).1, ?_⟩
  exact (spec_C9_idleReminderRearm 2 ⟨0, 0⟩ 0 5 7 false).2 (by decide)

theorem dropMsgThinking_role (m : AgentMsg) : (dropMsgThinking m).role = m.role := by
  unfold dropMsgThinking
  split
  · dsimp only
    split
    · rfl
    · rfl
  · rfl

theorem dropBeforeIdx_roles (msgs : List AgentMsg) :
    ∀ lu, (dropBeforeIdx lu msgs).map AgentMsg.role = msgs.map AgentMsg.role := by
  induction msgs with
  | nil => intro lu; rfl
  | cons m rest ih =>
    intro lu
    simp only [dropBeforeIdx, List.map_cons, ih]
    split_ifs <;> simp [dropMsgThinking_role]

theorem dropThinkingFromContent_allThinking (c : List CBlock) (hne : c ≠ [])
    (hall : ∀ b ∈ c, isThinkingBlock b = true) :
    dropThinkingFromContent c = ([], true) := by
  induction c with
  | nil => exact absurd rfl hne
  | cons b rest ih =>
    have hb := hall b (List.mem_cons_self b rest)
    by_cases hr : rest = []
    · subst hr
      simp [dropThinkingFromContent, hb]
    · have h2 := ih hr (fun x hx => hall x (List.mem_cons_of_mem b hx))
      simp only [dropThinkingFromContent]
      rw [h2]
      simp [hb]

theorem dropMsgThinking_allThinking (m : AgentMsg) (c : List CBlock)
    (hrole : m.role = "assistant") (hc : m.content = some c) (hne : c ≠ [])
    (hall : ∀ b ∈ c, isThinkingBlock b = true) :
    dropMsgThinking m = ⟨"assistant", some [CBlock.textB ""]⟩ := by
  obtain ⟨r, co⟩ := m
  subst hrole
  simp only at hc
  subst hc
  simp only [dropMsgThinking, isAssistantMessageWithContent]
  rw [show (Option.getD (some c) []) = c from rfl]
  simp [dropThinkingFromContent_allThinking c hne hall]

theorem msgTouched_allThinking (m : AgentMsg) (c : List CBlock)
    (hrole : m.role = "assistant") (hc : m.content = some c) (hne : c ≠ [])
    (hall : ∀ b ∈ c, isThinkingBlock b = true) : msgTouched m = true := by
  obtain ⟨r, co⟩ := m
  subst hrole
  simp only at hc
  subst hc
  rcases c with _ | ⟨b, rest⟩
  · exact absurd rfl hne
  · simp [msgTouched, isAssistantMessageWithContent]
    exact Or.inl (hall b (List.mem_cons_self b rest))

theorem dropBeforeIdx_get (msgs : List AgentMsg) :
    ∀ lu i, (dropBeforeIdx lu msgs).get? i =
      if i < lu then (msgs.get? i).map dropMsgThinking else msgs.get? i := by
  induction msgs with
  | nil => intro lu i; simp [dropBeforeIdx]
  | cons m rest ih =>
    intro lu i
    cases i with
    | zero =>
      cases lu with
      | zero => simp [dropBeforeIdx]
      | succ lu' => simp [dropBeforeIdx, Nat.succ_pos]
    | succ i' =>
      cases lu with
      | zero =>
        simp only [dropBeforeIdx, List.get?_cons_succ]
        rw [ih 0 i']
        simp
      | succ lu' =>
        simp only [dropBeforeIdx, List.get?_cons_succ]
        rw [ih (lu' + 1 - 1) i']
        simp only [Nat.add_sub_cancel]
        by_cases h : i' < lu'
        · simp [h, Nat.succ_lt_succ h]
        · have h2 : ¬ (i' + 1 < lu' + 1) := by omega
          simp [h, h2]

theorem touchedBeforeIdx_of_get (msgs : List AgentMsg) :
    ∀ lu i m, i < lu → msgs.get? i = some m → msgTouched m = true →
      touchedBeforeIdx lu msgs = true := by
  induction msgs with
  | nil => intro lu i m _ h; simp at h
  | cons m0 rest ih =>
    intro lu i m hi hg ht
    cases i with
    | zero =>
      simp only [List.get?_cons_zero, Option.some.injEq] at hg
      subst hg
      simp [touchedBeforeIdx, hi, ht]
    | succ i' =>
      cases lu with
      | zero => omega
      | succ lu' =>
        simp only [List.get?_cons_succ] at hg
        have := ih lu' i' m (by omega) hg ht
        simp [touchedBeforeIdx, this]

/-- C10 counterexample: `dropHistoricalThinkingBlocks` keeps a
thinking-only assistant message intact when it sits at or after the last
user message (the boundary guard returns the input unchanged), so the
claimed unconditional replacement by a single empty text block fails. -/
theorem spec_C10_counterexample :
    dropHistoricalThinkingBlocks
        [⟨"user", some [CBlock.textB "q"]⟩, ⟨"assistant", some [CBlock.thinkingB "t"]⟩] =
      [⟨"user", some [CBlock.textB "q"]⟩, ⟨"assistant", some [CBlock.thinkingB "t"]⟩] ∧
    (∀ b ∈ [CBlock.thinkingB "t"], isThinkingBlock b = true) ∧
    some [CBlock.thinkingB "t"] ≠ some [CBlock.textB ""] := by
  refine ⟨by decide, by decide, by decide⟩

/-- C10 (amended): both droppers preserve length, order and roles; a
nonempty all-thinking assistant message is replaced by a single empty
text block by `dropThinkingBlocks` always, and by
`dropHistoricalThinkingBlocks` exactly for messages strictly before the
last user message; and when nothing in scope contains a thinking block,
the input list itself is returned (the source returns the original array
reference). -/
theorem spec_C10_dropThinking :
    ∀ msgs : List AgentMsg,
      ((dropThinkingBlocks msgs).map AgentMsg.role = msgs.map AgentMsg.role) ∧
      ((dropHistoricalThinkingBlocks msgs).map AgentMsg.role = msgs.map AgentMsg.role) ∧
      (∀ i m c, msgs.get? i = some m → m.role = "assistant" → m.content = some c →
        c ≠ [] → (∀ b ∈ c, isThinkingBlock b = true) →
        (dropThinkingBlocks msgs).get? i = some ⟨"assistant", some [CBlock.textB ""]⟩) ∧
      (∀ lu i m c, lastUserIdx msgs = some lu → 0 < lu → i < lu →
        msgs.get? i = some m → m.role = "assistant" → m.content = some c →
        c ≠ [] → (∀ b ∈ c, isThinkingBlock b = true) →
        (dropHistoricalThinkingBlocks msgs).get? i =
          some ⟨"assistant", some [CBlock.textB ""]⟩) ∧
      (msgs.any msgTouched = false → dropThinkingBlocks msgs = msgs) ∧
      (∀ lu, lastUserIdx msgs = some lu → touchedBeforeIdx lu msgs = false →
        dropHistoricalThinkingBlocks msgs = msgs) := by
  intro msgs
  refine ⟨?_, ?_, ?_, ?_, ?_, ?_⟩
  · unfold dropThinkingBlocks
    dsimp only
    split
    · rw [List.map_map]
      exact List.map_congr_left (fun m _ => dropMsgThinking_role m)
    · rfl
  · unfold dropHistoricalThinkingBlocks
    cases h : lastUserIdx msgs with
    | none => rfl
    | some lu =>
      dsimp only
      split
      · rfl
      · split
        · exact dropBeforeIdx_roles msgs lu
        · rfl
  · intro i m c hg hrole hc hne hall
    have htch : msgTouched m = true := msgTouched_allThinking m c hrole hc hne hall
    have hany : msgs.any msgTouched = true :=
      List.any_eq_true.mpr ⟨m, List.get?_mem hg, htch⟩
    unfold dropThinkingBlocks
    dsimp only
    rw [hany]
    simp only [if_true, List.get?_map, hg, Option.map_some']
    rw [dropMsgThinking_allThinking m c hrole hc hne hall]
  · intro lu i m c hlu hpos hi hg hrole hc hne hall
    have htch : msgTouched m = true := msgTouched_allThinking m c hrole hc hne hall
    have htb : touchedBeforeIdx lu msgs = true :=
      touchedBeforeIdx_of_get msgs lu i m hi hg htch
    unfold dropHistoricalThinkingBlocks
    rw [hlu]
    dsimp only
    rw [if_neg (by omega), htb]
    simp only [if_true]
    rw [dropBeforeIdx_get msgs lu i, if_pos hi, hg]
    simp only [Option.map_some']
    rw [dropMsgThinking_allThinking m c hrole hc hne hall]
  · intro hany
    unfold dropThinkingBlocks
    dsimp only
    rw [hany]
    simp
  · intro lu hlu htb
    unfold dropHistoricalThinkingBlocks
    rw [hlu]
    dsimp only
    split
    · rfl
    · rw [htb]
      simp

/-- Witness for `spec_C10_dropThinking` at a concrete instance. -/
theorem spec_C10_witness :
    (dropThinkingBlocks
        [⟨"user", some [CBlock.textB "q"]⟩,
         ⟨"assistant", some [CBlock.thinkingB "t"]⟩]).get? 1 =
      some ⟨"assistant", some [CBlock.textB ""]⟩ ∧
    (dropHistoricalThinkingBlocks
        [⟨"assistant", some [CBlock.thinkingB "t"]⟩,
         ⟨"user", some [CBlock.textB "q"]⟩]).get? 0 =
      some ⟨"assistant", some [CBlock.textB ""]⟩ := by
  constructor
  · exact (spec_C10_dropThinking _).2.2.1 1
      ⟨"assistant", some [CBlock.thinkingB "t"]⟩ [CBlock.thinkingB "t"] (by decide)
      (by decide) (by decide) (by decide) (by decide)
  · exact (spec_C10_dropThinking _).2.2.2.1 1 0
      ⟨"assistant", some [CBlock.thinkingB "t"]⟩ [CBlock.thinkingB "t"] (by decide)
      (by decide) (by decide) (by decide) (by decide) (by decide) (by decide) (by decide)

theorem normalize_empty : normalizeTextForComparison "" = "" := by decide

theorem ne_empty_of_normalize_ne (t : String) (h : normalizeTextForComparison t ≠ "") :
    t ≠ "" := by
  intro ht
  exact h (by rw [ht]; exact normalize_empty)

/-- C3: a messaging-tool send is committed for dedup only on success.
After a successful send of `t`, an identical final assistant text is
suppressed and `assistantTexts` stays empty; after a failed send the same
final text is retained. -/
theorem spec_C3_toolSendDedup :
    ∀ (t : String) (cfg : SubCfg),
      normalizeTextForComparison t ≠ "" →
      (finalizeAssistantTexts cfg (recordMessagingToolResult initialSubSt t false)
          t false false).assistantTexts = [] ∧
      (finalizeAssistantTexts cfg (recordMessagingToolResult initialSubSt t true)
          t false false).assistantTexts = [t] := by
  intro t cfg h
  have ht : t ≠ "" := ne_empty_of_normalize_ne t h
  constructor
  · simp [finalizeAssistantTexts, recordMessagingToolResult, initialSubSt,
      isMessagingToolDuplicateNormalized, ht, h]
  · simp only [recordMessagingToolResult, if_true]
    simp only [finalizeAssistantTexts, initialSubSt]
    simp only [isMessagingToolDuplicateNormalized]
    simp only [ht, pushAssistantText, shouldSkipAssistantText, rememberAssistantText]
    split_ifs <;> simp_all

/-- Witness for `spec_C3_toolSendDedup` at the concrete text "Hi". -/
theorem spec_C3_witness :
    (finalizeAssistantTexts ⟨false, true⟩
        (recordMessagingToolResult initialSubSt "Hi" false) "Hi" false false).assistantTexts
      = [] ∧
    (finalizeAssistantTexts ⟨false, true⟩
        (recordMessagingToolResult initialSubSt "Hi" true) "Hi" false false).assistantTexts
      = ["Hi"] :=
  spec_C3_toolSendDedup "Hi" ⟨false, true⟩ (by decide)

/-- C8 counterexample: with two committed messaging-tool sends ("Alpha"
then "Beta"), a block chunk equal to the older send "Alpha" is
suppressed by `emitBlockChunk` even though it does not match the most
recent send "Beta" — the block-chunk dedup consults the full committed
history, not only the most recent entry. -/
theorem spec_C8_counterexample :
    (emitBlockChunk c8State "<final>Alpha</final>").assistantTexts = [] ∧
    normalizeTextForComparison "Alpha" ≠
      c8State.messagingToolSentTextsNormalized.getLastD "" ∧
    isMessagingToolDuplicateNormalized (normalizeTextForComparison "Alpha")
      c8State.messagingToolSentTextsNormalized = true := by
  refine ⟨by decide, by decide, by decide⟩

theorem pushAssistantText_texts_sent (st : SubSt) (A B : List String) (t : String) :
    (pushAssistantText { st with messagingToolSentTextsNormalized := A } t).assistantTexts =
      (pushAssistantText { st with messagingToolSentTextsNormalized := B } t).assistantTexts := by
  simp only [pushAssistantText, shouldSkipAssistantText, rememberAssistantText]
  split_ifs <;> rfl

/-- C8 (amended): block-chunk suppression consults the full committed
messaging-tool history (`emitBlockChunk` passes the whole normalized sent
list to the duplicate check), while the finalize-time dedup consults only
the most recent committed send (its result does not depend on any older
history entry). -/
theorem spec_C8_dedupLookback :
    (∀ (st : SubSt) (text : String),
      isMessagingToolDuplicateNormalized
          (normalizeTextForComparison
            (trimEndStr (stripDowngradedToolCallText
              ⟨(stripBlockTags text.data st.blockState).1⟩)))
          st.messagingToolSentTextsNormalized = true →
      (emitBlockChunk st text).assistantTexts = st.assistantTexts) ∧
    (∀ (cfg : SubCfg) (st : SubSt) (hist : List String) (x text : String) (a b : Bool),
      (finalizeAssistantTexts cfg
          { st with messagingToolSentTextsNormalized := hist ++ [x] }
          text a b).assistantTexts =
        (finalizeAssistantTexts cfg
          { st with messagingToolSentTextsNormalized := [x] }
          text a b).assistantTexts) := by
  constructor
  · intro st text hdup
    unfold emitBlockChunk
    split_ifs <;> simp_all [rememberAssistantText]
  · intro cfg st hist x text a b
    by_cases htext : text = ""
    · subst htext
      simp [finalizeAssistantTexts]
    · simp only [finalizeAssistantTexts, List.getLastD_concat]
      have h1 : (decide (hist ++ [x] ≠ [])) = true := by simp
      have h2 : (decide (([x] : List String) ≠ [])) = true := by simp
      have h3 : (decide (text ≠ "")) = true := by simp [htext]
      have h4 : ([x] : List String).getLastD "" = x := rfl
      rw [h1, h2, h3, h4]
      split_ifs <;>
        first
          | rfl
          | exact pushAssistantText_texts_sent st (hist ++ [x]) [x] text

/-- Witness for `spec_C8_dedupLookback` at concrete inputs. -/
theorem spec_C8_witness :
    (emitBlockChunk c8State "<final>Alpha</final>").assistantTexts =
      c8State.assistantTexts ∧
    (finalizeAssistantTexts ⟨false, true⟩
        { initialSubSt with messagingToolSentTextsNormalized := ["x"] ++ ["y"] }
        "T" false false).assistantTexts =
      (finalizeAssistantTexts ⟨false, true⟩
        { initialSubSt with messagingToolSentTextsNormalized := ["y"] }
        "T" false false).assistantTexts := by
  constructor
  · exact spec_C8_dedupLookback.1 c8State "<final>Alpha</final>" (by decide)
  · exact spec_C8_dedupLookback.2 ⟨false, true⟩ initialSubSt ["x"] "y" "T" false false

/-- C6 helper: `resolveCompactionRetry` on a state with a positive
pending counter above one decrements and keeps the shared promise and
the settled history untouched. -/
theorem resolveIter_invariant (st : CoordSt) (pid : Nat)
    (hcur : st.current = some pid) (hf : st.compactionInFlight = false) :
    ∀ k, k < st.pendingCompactionRetry →
      (resolveIter k st).current = some pid ∧
      (resolveIter k st).settled = st.settled ∧
      (resolveIter k st).compactionInFlight = false ∧
      (resolveIter k st).pendingCompactionRetry = st.pendingCompactionRetry - k := by
  intro k
  induction k generalizing st with
  | zero => intro hk; exact ⟨hcur, rfl, hf, by simp [resolveIter]⟩
  | succ k' ih =>
    intro hk
    have hpos : st.pendingCompactionRetry ≠ 0 := by omega
    have hstep : resolveCompactionRetry st =
        { st with pendingCompactionRetry := st.pendingCompactionRetry - 1 } := by
      unfold resolveCompactionRetry
      rw [if_neg hpos]
      have : ¬(st.pendingCompactionRetry - 1 = 0 ∧
          ¬({ st with pendingCompactionRetry := st.pendingCompactionRetry - 1 }).compactionInFlight = true) := by
        intro hand
        omega
      rw [if_neg this]
    rw [show resolveIter (k' + 1) st = resolveIter k' (resolveCompactionRetry st) from rfl,
      hstep]
    have := ih { st with pendingCompactionRetry := st.pendingCompactionRetry - 1 }
      hcur hf (by simp; omega)
    refine ⟨this.1, this.2.1, this.2.2.1, ?_⟩
    rw [this.2.2.2]
    simp
    omega

theorem resolveIter_succ (k : Nat) (st : CoordSt) :
    resolveIter (k + 1) st = resolveCompactionRetry (resolveIter k st) := by
  induction k generalizing st with
  | zero => rfl
  | succ k' ih =>
    show resolveIter (k' + 1) (resolveCompactionRetry st) = _
    rw [ih]
    rfl

/-- C6: `waitForCompactionRetry` with nothing pending or in flight
resolves immediately (in its queued microtask, the state unchanged); with
a pending compaction it hands out the shared promise, which stays
unsettled until `resolveCompactionRetry` has been invoked the matching
number of times with no compaction in flight, at which point it resolves;
called after `unsubscribe` it rejects immediately with the
cancellation-tagged error; and `unsubscribe` during a pending wait
rejects (never resolves) the outstanding shared promise. -/
theorem spec_C6_compactionWait :
    (∀ st : CoordSt, st.unsubscribed = false → st.compactionInFlight = false →
      st.pendingCompactionRetry = 0 →
      waitForCompactionRetry st = (st, WaitRes.deferredMicrotask) ∧
      runWaitMicrotask st = (st, WaitRes.resolvedNow)) ∧
    (∀ (st : CoordSt) (pid n : Nat), st.unsubscribed = false →
      st.compactionInFlight = false → st.current = some pid →
      st.pendingCompactionRetry = n → 0 < n →
      waitForCompactionRetry st = (st, WaitRes.shared pid) ∧
      (∀ k, k < n → (resolveIter k st).settled = st.settled ∧
        (resolveIter k st).current = some pid) ∧
      (resolveIter n st).settled = (pid, POut.resolvedP) :: st.settled) ∧
    (∀ st : CoordSt, st.unsubscribed = true →
      waitForCompactionRetry st = (st, WaitRes.rejectedAbortNow)) ∧
    (∀ (st : CoordSt) (pid : Nat), st.unsubscribed = false → st.current = some pid →
      (unsubscribeCoord st).settled = (pid, POut.rejectedAbort) :: st.settled ∧
      (unsubscribeCoord st).current = none) := by
  refine ⟨?_, ?_, ?_, ?_⟩
  · intro st hu hf hp
    constructor
    · simp [waitForCompactionRetry, hu, hf, hp]
    · simp [runWaitMicrotask, hu, hf, hp]
  · intro st pid n hu hf hcur hp hn
    refine ⟨?_, ?_, ?_⟩
    · have hcond : st.compactionInFlight = true ∨ 0 < st.pendingCompactionRetry := by
        right; omega
      simp [waitForCompactionRetry, hu, hcond, ensureCompactionPromise, hcur]
    · intro k hk
      have := resolveIter_invariant st pid hcur hf k (by omega)
      exact ⟨this.2.1, this.1⟩
    · obtain ⟨m, rfl⟩ : ∃ m, n = m + 1 := ⟨n - 1, by omega⟩
      rw [resolveIter_succ]
      have hinv := resolveIter_invariant st pid hcur hf m (by omega)
      obtain ⟨hc, hs, hif, hpd⟩ := hinv
      have hpd1 : (resolveIter m st).pendingCompactionRetry = 1 := by omega
      unfold resolveCompactionRetry
      rw [if_neg (by omega)]
      have hz : (resolveIter m st).pendingCompactionRetry - 1 = 0 := by omega
      rw [if_pos ?hcnd]
      case hcnd =>
        constructor
        · simpa using hz
        · simpa using hif
      simp only [hc]
      simp [hs]
  · intro st hu
    simp [waitForCompactionRetry, hu]
  · intro st pid hu hcur
    unfold unsubscribeCoord
    rw [if_neg (by simp [hu])]
    simp [hcur]

/-- Witness for `spec_C6_compactionWait` at concrete coordinator states. -/
theorem spec_C6_witness :
    (waitForCompactionRetry ⟨0, false, false, none, [], 0⟩ =
      (⟨0, false, false, none, [], 0⟩, WaitRes.deferredMicrotask)) ∧
    (runWaitMicrotask ⟨0, false, false, none, [], 0⟩ =
      (⟨0, false, false, none, [], 0⟩, WaitRes.resolvedNow)) ∧
    (waitForCompactionRetry ⟨1, false, false, some 0, [], 1⟩ =
      (⟨1, false, false, some 0, [], 1⟩, WaitRes.shared 0)) ∧
    ((resolveIter 1 ⟨1, false, false, some 0, [], 1⟩).settled =
      [(0, POut.resolvedP)]) ∧
    (waitForCompactionRetry ⟨1, false, true, none, [(0, POut.rejectedAbort)], 1⟩ =
      (⟨1, false, true, none, [(0, POut.rejectedAbort)], 1⟩, WaitRes.rejectedAbortNow)) ∧
    ((unsubscribeCoord ⟨1, false, false, some 0, [], 1⟩).settled =
      [(0, POut.rejectedAbort)]) := by
  refine ⟨?_, ?_, ?_, ?_, ?_, ?_⟩
  · exact (spec_C6_compactionWait.1 _ rfl rfl rfl).1
  · exact (spec_C6_compactionWait.1 _ rfl rfl rfl).2
  · exact (spec_C6_compactionWait.2.1 _ 0 1 rfl rfl rfl rfl (by decide)).1
  · exact (spec_C6_compactionWait.2.1 _ 0 1 rfl rfl rfl rfl (by decide)).2.2
  · exact spec_C6_compactionWait.2.2.1 _ rfl
  · exact (spec_C6_compactionWait.2.2.2 _ 0 rfl rfl).1

theorem rotGo_complete (candidates : List (Option String))
    (resolveKey : Option String → Option (Option String))
    (outcomes : List AttemptOutcome) :
    ∀ (remaining attempt : Nat) (rs : KeyRotationState) (cds : List String) (calls : Nat),
      (∃ k evs,
        outcomes.getD k (AttemptOutcome.stream []) = AttemptOutcome.stream evs ∧
        (rotGo candidates resolveKey outcomes remaining attempt rs cds calls).downstream
          = evs ∧
        evs.any isRetriableErrorEvent = false) ∨
      (∃ msg,
        (rotGo candidates resolveKey outcomes remaining attempt rs cds calls).downstream
          = [KEvent.errEv false msg]) := by
  intro remaining
  induction remaining with
  | zero => intro attempt rs cds calls; right; exact ⟨exhaustedMsg, rfl⟩
  | succ rem ih =>
    intro attempt rs cds calls
    unfold rotGo
    dsimp only
    split
    · exact ih (attempt + 1) rs cds calls
    · split
      · exact ih (attempt + 1) rs cds calls
      · split
        · next evs heq =>
          split
          · next hrl =>
            exact ih (attempt + 1) _ _ (calls + 1)
          · next hrl =>
            left
            refine ⟨calls, evs, heq, ?_, ?_⟩
            · dsimp only
              refine List.filter_eq_self.mpr (fun a ha => ?_)
              have h2 : evs.any isRetriableErrorEvent = false := by
                simpa using hrl
              have h3 := (List.any_eq_false.mp h2) a ha
              simp [h3]
            · simpa using hrl
        · next r msg heq =>
          split
          · exact ih (attempt + 1) _ _ (calls + 1)
          · right; exact ⟨msg, rfl⟩

/-- C5: with three candidate profiles and none in cooldown, two
rate-limited attempts followed by a success make exactly three underlying
calls and deliver the third candidate event sequence as the sole
downstream output; three rate-limited attempts emit exactly one synthetic
exhausted error event and set `allKeysExhausted`; and in every case the
downstream output is either the complete event list of one successful
attempt or exactly one synthetic error event — never a partial sequence
from a failed attempt. -/
theorem spec_C5_keyRotation :
    (∀ (es : List KEvent) (m1 m2 : String),
      es.any isRetriableErrorEvent = false →
      wrapStreamFnWithKeyRotation [some "a", some "b", some "c"] some
          [AttemptOutcome.stream [KEvent.errEv true m1],
           AttemptOutcome.stream [KEvent.errEv true m2],
           AttemptOutcome.stream es] createKeyRotationState [] =
        { downstream := es
          calls := 3
          state := { allKeysExhausted := false, lastProfileId := some "c", rotationIndex := 0 }
          cooldowns := ["b", "a"] }) ∧
    (∀ m1 m2 m3 : String,
      wrapStreamFnWithKeyRotation [some "a", some "b", some "c"] some
          [AttemptOutcome.stream [KEvent.errEv true m1],
           AttemptOutcome.stream [KEvent.errEv true m2],
           AttemptOutcome.stream [KEvent.errEv true m3]] createKeyRotationState [] =
        { downstream := [KEvent.errEv false exhaustedMsg]
          calls := 3
          state := { allKeysExhausted := true, lastProfileId := some "c", rotationIndex := 0 }
          cooldowns := ["c", "b", "a"] }) ∧
    (∀ (candidates : List (Option String))
       (resolveKey : Option String → Option (Option String))
       (outcomes : List AttemptOutcome) (rs : KeyRotationState) (cds : List String),
      (∃ k evs,
        outcomes.getD k (AttemptOutcome.stream []) = AttemptOutcome.stream evs ∧
        (wrapStreamFnWithKeyRotation candidates resolveKey outcomes rs cds).downstream
          = evs ∧
        evs.any isRetriableErrorEvent = false) ∨
      (∃ msg,
        (wrapStreamFnWithKeyRotation candidates resolveKey outcomes rs cds).downstream
          = [KEvent.errEv false msg])) := by
  refine ⟨?_, ?_, ?_⟩
  · intro es m1 m2 h
    have hf : es.filter (fun e => !isRetriableErrorEvent e) = es :=
      List.filter_eq_self.mpr (fun a ha => by
        simp [(List.any_eq_false.mp h) a ha])
    have h1 : ([KEvent.errEv true m1] : List KEvent).any isRetriableErrorEvent = true := rfl
    have h2 : ([KEvent.errEv true m2] : List KEvent).any isRetriableErrorEvent = true := rfl
    simp [wrapStreamFnWithKeyRotation, rotGo, createKeyRotationState, hf, h, h1, h2]
  · intro m1 m2 m3
    have h1 : ([KEvent.errEv true m1] : List KEvent).any isRetriableErrorEvent = true := rfl
    have h2 : ([KEvent.errEv true m2] : List KEvent).any isRetriableErrorEvent = true := rfl
    have h3 : ([KEvent.errEv true m3] : List KEvent).any isRetriableErrorEvent = true := rfl
    simp [wrapStreamFnWithKeyRotation, rotGo, createKeyRotationState, h1, h2, h3]
  · intro candidates resolveKey outcomes rs cds
    exact rotGo_complete candidates resolveKey outcomes candidates.length 0
      { rs with allKeysExhausted := false } cds 0

/-- Witness for `spec_C5_keyRotation` at concrete inputs. -/
theorem spec_C5_witness :
    wrapStreamFnWithKeyRotation [some "a", some "b", some "c"] some
        [AttemptOutcome.stream [KEvent.errEv true "r1"],
         AttemptOutcome.stream [KEvent.errEv true "r2"],
         AttemptOutcome.stream [KEvent.item 7]] createKeyRotationState [] =
      { downstream := [KEvent.item 7]
        calls := 3
        state := { allKeysExhausted := false, lastProfileId := some "c", rotationIndex := 0 }
        cooldowns := ["b", "a"] } ∧
    wrapStreamFnWithKeyRotation [some "a", some "b", some "c"] some
        [AttemptOutcome.stream [KEvent.errEv true "r1"],
         AttemptOutcome.stream [KEvent.errEv true "r2"],
         AttemptOutcome.stream [KEvent.errEv true "r3"]] createKeyRotationState [] =
      { downstream := [KEvent.errEv false exhaustedMsg]
        calls := 3
        state := { allKeysExhausted := true, lastProfileId := some "c", rotationIndex := 0 }
        cooldowns := ["c", "b", "a"] } ∧
    ((∃ k evs,
        ([AttemptOutcome.thrown false "boom"].getD k (AttemptOutcome.stream []) =
          AttemptOutcome.stream evs) ∧
        (wrapStreamFnWithKeyRotation [some "a", some "b"] some
            [AttemptOutcome.thrown false "boom"] createKeyRotationState []).downstream
          = evs ∧
        evs.any isRetriableErrorEvent = false) ∨
      (∃ msg,
        (wrapStreamFnWithKeyRotation [some "a", some "b"] some
            [AttemptOutcome.thrown false "boom"] createKeyRotationState []).downstream
          = [KEvent.errEv false msg])) := by
  refine ⟨?_, ?_, ?_⟩
  · exact spec_C5_keyRotation.1 [KEvent.item 7] "r1" "r2" (by decide)
  · exact spec_C5_keyRotation.2.1 "r1" "r2" "r3"
  · exact spec_C5_keyRotation.2.2 [some "a", some "b"] some
      [AttemptOutcome.thrown false "boom"] createKeyRotationState []

/-- C2: the repairer inserts a synthetic close-thinking tag immediately
before the first final-open match exactly when a thinking-open match
occurs strictly before it and no close-thinking match occurs between
them; in every other case (no thinking open, no final open, wrong order,
or already closed) the input is returned unchanged.  Consequently, the
enforcement-mode scanner turns the malformed input
`<think>reasoning<final>Hello</final>` into exactly `Hello`. -/
theorem spec_C2_repair :
    (∀ t : List Char,
      (∀ ti tl fi fl, srch matchThinkOpenRep t = some (ti, tl) →
        srch matchFinalOpenRep t = some (fi, fl) → ti < fi →
        srch matchThinkCloseRep ((t.drop (ti + tl)).take (fi - (ti + tl))) = none →
        repairMalformedReasoningTags t = t.take fi ++ "</think>".data ++ t.drop fi) ∧
      ((srch matchThinkOpenRep t = none ∨ srch matchFinalOpenRep t = none ∨
        (∃ ti tl fi fl, srch matchThinkOpenRep t = some (ti, tl) ∧
          srch matchFinalOpenRep t = some (fi, fl) ∧
          (fi ≤ ti ∨
            (srch matchThinkCloseRep
              ((t.drop (ti + tl)).take (fi - (ti + tl)))).isSome = true))) →
        repairMalformedReasoningTags t = t)) ∧
    (stripBlockTags "<think>reasoning<final>Hello</final>".data ⟨false, false⟩).1 =
      "Hello".data := by
  constructor
  · intro t
    constructor
    · intro ti tl fi fl hto hfo hlt hnc
      by_cases ht : t = []
      · subst ht
        have hn : srch matchThinkOpenRep ([] : List Char) = none := rfl
        rw [hn] at hto
        exact Option.noConfusion hto
      · unfold repairMalformedReasoningTags
        rw [if_neg ht, hto, hfo]
        dsimp only
        rw [if_neg (by omega : ¬ fi ≤ ti)]
        simp [hnc]
    · intro hcase
      by_cases ht : t = []
      · subst ht; rfl
      · unfold repairMalformedReasoningTags
        rw [if_neg ht]
        rcases hcase with hto | hfo | ⟨ti, tl, fi, fl, hto, hfo, hrest⟩
        · rw [hto]
        · rw [hfo]
          rcases hh : srch matchThinkOpenRep t with _ | ⟨a, b⟩ <;> rfl
        · rw [hto, hfo]
          dsimp only
          rcases hrest with hle | hclose
          · rw [if_pos hle]
          · by_cases hord : fi ≤ ti
            · rw [if_pos hord]
            · rw [if_neg hord]
              simp [hclose]
  · decide

/-- Witness for `spec_C2_repair` at concrete inputs: the malformed text
gets the synthetic close inserted before `<final>`, and an already
well-formed text is returned unchanged. -/
theorem spec_C2_witness :
    repairMalformedReasoningTags "<think>reasoning<final>Hello</final>".data =
      ("<think>reasoning<final>Hello</final>".data.take 16 ++ "</think>".data ++
        "<think>reasoning<final>Hello</final>".data.drop 16) ∧
    repairMalformedReasoningTags "<think>a</think><final>b</final>".data =
      "<think>a</think><final>b</final>".data := by
  constructor
  · exact (spec_C2_repair.1 "<think>reasoning<final>Hello</final>".data).1 0 7 16 7
      (by decide) (by decide) (by decide) (by decide)
  · exact (spec_C2_repair.1 "<think>a</think><final>b</final>".data).2
      (Or.inr (Or.inr ⟨0, 7, 16, 7, by decide, by decide, Or.inr (by decide)⟩))

theorem skipWs_append (s R : List Char) (h : R.head? = some '<') :
    skipWs (s ++ R) = skipWs s ++ R := by
  induction s with
  | nil =>
    cases R with
    | nil => simp at h
    | cons c t =>
      simp only [List.head?] at h
      injection h with h
      subst h
      simp [skipWs, isWsChar]
  | cons c t ih =>
    simp only [List.cons_append, skipWs]
    split_ifs with hws
    · exact ih
    · rfl

theorem dropNonAngle_append (s R : List Char) (h : R.head? = some '<') :
    dropNonAngle (s ++ R) = dropNonAngle s ++ R := by
  induction s with
  | nil =>
    cases R with
    | nil => simp at h
    | cons c t =>
      simp only [List.head?] at h
      injection h with h
      subst h
      simp [dropNonAngle]
  | cons c t ih =>
    simp only [List.cons_append, dropNonAngle]
    split_ifs with hc
    · rfl
    · exact ih

theorem stripCI_append_some (p : List Char) :
    ∀ (s r R : List Char), stripCI p s = some r → stripCI p (s ++ R) = some (r ++ R) := by
  induction p with
  | nil =>
    intro s r R h
    simp only [stripCI] at h
    injection h with h
    subst h
    rfl
  | cons q ps ih =>
    intro s r R h
    cases s with
    | nil => simp [stripCI] at h
    | cons c cs =>
      simp only [List.cons_append, stripCI] at h ⊢
      split_ifs at h ⊢ with hc
      exact ih cs r R h

theorem stripCI_append_none (p : List Char) (hp : ∀ a ∈ p, a ≠ '<') :
    ∀ (s R : List Char), stripCI p s = none → R.head? = some '<' →
      stripCI p (s ++ R) = none := by
  induction p with
  | nil => intro s R h _; simp [stripCI] at h
  | cons q ps ih =>
    intro s R h hR
    cases s with
    | nil =>
      cases R with
      | nil => simp at hR
      | cons c t =>
        simp only [List.head?] at hR
        injection hR with hR
        subst hR
        simp only [List.nil_append, stripCI]
        have hcond : ¬(lcc '<' = q) := by
          have hl : lcc '<' = '<' := by decide
          rw [hl]
          intro heq
          exact hp q (List.mem_cons_self q ps) heq.symm
        rw [if_neg hcond]
    | cons c cs =>
      simp only [List.cons_append, stripCI] at h ⊢
      split_ifs at h ⊢ with hc
      · exact ih (fun a ha => hp a (List.mem_cons_of_mem q ha)) cs R h hR
      · rfl

theorem expectGt_append_none (s R : List Char) (h : expectGt s = none)
    (hR : R.head? = some '<') : expectGt (s ++ R) = none := by
  cases s with
  | nil =>
    cases R with
    | nil => simp at hR
    | cons c t =>
      simp only [List.head?] at hR
      injection hR with hR
      subst hR
      simp [expectGt]
  | cons c cs =>
    simp only [List.cons_append, expectGt] at h ⊢
    split_ifs at h ⊢ with hc
    rfl

theorem nameTail_append_none (names : List (List Char))
    (hp : ∀ n ∈ names, ∀ a ∈ n, a ≠ '<') :
    ∀ (s R : List Char), nameTail names s = none → R.head? = some '<' →
      nameTail names (s ++ R) = none := by
  induction names with
  | nil => intro s R _ _; rfl
  | cons n rest ih =>
    intro s R h hR
    simp only [nameTail] at h ⊢
    cases hstrip : stripCI n s with
    | none =>
      rw [stripCI_append_none n (hp n (List.mem_cons_self n rest)) s R hstrip hR]
      rw [hstrip] at h
      dsimp only at h ⊢
      exact ih (fun m hm => hp m (List.mem_cons_of_mem n hm)) s R h hR
    | some r =>
      rw [stripCI_append_some n s r R hstrip]
      rw [hstrip] at h
      dsimp only at h ⊢
      cases hexp : expectGt (skipWs r) with
      | some r2 => rw [hexp] at h; exact Option.noConfusion h
      | none =>
        rw [hexp] at h
        rw [skipWs_append r R hR, expectGt_append_none (skipWs r) R hexp hR]
        exact ih (fun m hm => hp m (List.mem_cons_of_mem n hm)) s R h hR

theorem thinkNames_no_lt : ∀ n ∈ thinkNames, ∀ a ∈ n, a ≠ '<' := by decide

theorem finalName_no_lt : ∀ n ∈ [("final").data], ∀ a ∈ n, a ≠ '<' := by decide

theorem nameTail_think_lt (x : List Char) : nameTail thinkNames ('<' :: x) = none := rfl

theorem nameTail_final_lt (x : List Char) : nameTail [("final").data] ('<' :: x) = none := rfl

theorem matchThinkTag_cons_ne (c : Char) (t : List Char) (h : c ≠ '<') :
    matchThinkTag (c :: t) = none := by
  simp [matchThinkTag, h]

theorem matchFinalTag_cons_ne (c : Char) (t : List Char) (h : c ≠ '<') :
    matchFinalTag (c :: t) = none := by
  simp [matchFinalTag, h]

theorem matchThinkOpenRep_cons_ne (c : Char) (t : List Char) (h : c ≠ '<') :
    matchThinkOpenRep (c :: t) = none := by
  simp [matchThinkOpenRep, h]

theorem matchThinkCloseRep_cons_ne (c : Char) (t : List Char) (h : c ≠ '<') :
    matchThinkCloseRep (c :: t) = none := by
  simp [matchThinkCloseRep, h]

theorem matchFinalOpenRep_cons_ne (c : Char) (t : List Char) (h : c ≠ '<') :
    matchFinalOpenRep (c :: t) = none := by
  simp [matchFinalOpenRep, h]

theorem matchThinkTag_lt (t : List Char) :
    matchThinkTag ('<' :: t) =
      (match skipWs t with
      | [] => none
      | c2 :: rr =>
        if c2 = '/' then
          match nameTail thinkNames (skipWs rr) with
          | some rest => some (true, rest)
          | none => none
        else
          match nameTail thinkNames (c2 :: rr) with
          | some rest => some (false, rest)
          | none => none) := rfl

theorem matchFinalTag_lt (t : List Char) :
    matchFinalTag ('<' :: t) =
      (match skipWs t with
      | [] => none
      | c2 :: rr =>
        if c2 = '/' then
          match nameTail [("final").data] (skipWs rr) with
          | some rest => some (true, rest)
          | none => none
        else
          match nameTail [("final").data] (c2 :: rr) with
          | some rest => some (false, rest)
          | none => none) := rfl

theorem matchThinkOpenRep_lt (t : List Char) :
    matchThinkOpenRep ('<' :: t) = nameTail thinkNames (skipWs t) := rfl

theorem matchThinkCloseRep_lt (t : List Char) :
    matchThinkCloseRep ('<' :: t) =
      (match skipWs t with
      | [] => none
      | c2 :: rr => if c2 = '/' then nameTail thinkNames (skipWs rr) else none) := rfl

theorem matchFinalOpenRep_lt (t : List Char) :
    matchFinalOpenRep ('<' :: t) =
      (match stripCI ("final").data (skipWs t) with
      | some r2 => if bOkGo r2 then expectGt (dropNonAngle r2) else none
      | none => none) := rfl

theorem matchThinkTag_append_none (s R : List Char) (hs : s ≠ [])
    (h : matchThinkTag s = none) (hR : R.head? = some '<') :
    matchThinkTag (s ++ R) = none := by
  cases s with
  | nil => exact absurd rfl hs
  | cons c t =>
    by_cases hc : c = '<'
    · subst hc
      rw [matchThinkTag_lt] at h
      rw [List.cons_append, matchThinkTag_lt]
      rw [skipWs_append t R hR]
      cases hsk : skipWs t with
      | nil =>
        cases R with
        | nil => simp at hR
        | cons c2 R2 =>
          simp only [List.head?] at hR
          injection hR with hR
          subst hR
          simp only [List.nil_append]
          rw [if_neg (by decide : ¬('<' = '/')), nameTail_think_lt]
      | cons c2 rr =>
        rw [hsk] at h
        simp only [List.cons_append]
        try dsimp only at h ⊢
        by_cases hc2 : c2 = '/'
        · subst hc2
          rw [if_pos rfl] at h ⊢
          cases hnt : nameTail thinkNames (skipWs rr) with
          | some r2 => rw [hnt] at h; exact Option.noConfusion h
          | none =>
            rw [skipWs_append rr R hR,
              nameTail_append_none thinkNames thinkNames_no_lt (skipWs rr) R hnt hR]
        · rw [if_neg hc2] at h ⊢
          cases hnt : nameTail thinkNames (c2 :: rr) with
          | some r2 => rw [hnt] at h; exact Option.noConfusion h
          | none =>
            have h2 := nameTail_append_none thinkNames thinkNames_no_lt (c2 :: rr) R hnt hR
            rw [List.cons_append] at h2
            rw [h2]
    · rw [List.cons_append]
      exact matchThinkTag_cons_ne c (t ++ R) hc

theorem matchFinalTag_append_none (s R : List Char) (hs : s ≠ [])
    (h : matchFinalTag s = none) (hR : R.head? = some '<') :
    matchFinalTag (s ++ R) = none := by
  cases s with
  | nil => exact absurd rfl hs
  | cons c t =>
    by_cases hc : c = '<'
    · subst hc
      rw [matchFinalTag_lt] at h
      rw [List.cons_append, matchFinalTag_lt]
      rw [skipWs_append t R hR]
      cases hsk : skipWs t with
      | nil =>
        cases R with
        | nil => simp at hR
        | cons c2 R2 =>
          simp only [List.head?] at hR
          injection hR with hR
          subst hR
          simp only [List.nil_append]
          rw [if_neg (by decide : ¬('<' = '/')), nameTail_final_lt]
      | cons c2 rr =>
        rw [hsk] at h
        simp only [List.cons_append]
        try dsimp only at h ⊢
        by_cases hc2 : c2 = '/'
        · subst hc2
          rw [if_pos rfl] at h ⊢
          cases hnt : nameTail [("final").data] (skipWs rr) with
          | some r2 => rw [hnt] at h; exact Option.noConfusion h
          | none =>
            rw [skipWs_append rr R hR,
              nameTail_append_none [("final").data] finalName_no_lt (skipWs rr) R hnt hR]
        · rw [if_neg hc2] at h ⊢
          cases hnt : nameTail [("final").data] (c2 :: rr) with
          | some r2 => rw [hnt] at h; exact Option.noConfusion h
          | none =>
            have h2 := nameTail_append_none [("final").data] finalName_no_lt (c2 :: rr) R hnt hR
            rw [List.cons_append] at h2
            rw [h2]
    · rw [List.cons_append]
      exact matchFinalTag_cons_ne c (t ++ R) hc

theorem matchThinkOpenRep_append_none (s R : List Char) (hs : s ≠ [])
    (h : matchThinkOpenRep s = none) (hR : R.head? = some '<') :
    matchThinkOpenRep (s ++ R) = none := by
  cases s with
  | nil => exact absurd rfl hs
  | cons c t =>
    by_cases hc : c = '<'
    · subst hc
      rw [matchThinkOpenRep_lt] at h
      rw [List.cons_append, matchThinkOpenRep_lt]
      rw [skipWs_append t R hR]
      exact nameTail_append_none thinkNames thinkNames_no_lt (skipWs t) R h hR
    · rw [List.cons_append]
      exact matchThinkOpenRep_cons_ne c (t ++ R) hc

theorem matchThinkCloseRep_append_none (s R : List Char) (hs : s ≠ [])
    (h : matchThinkCloseRep s = none) (hR : R.head? = some '<') :
    matchThinkCloseRep (s ++ R) = none := by
  cases s with
  | nil => exact absurd rfl hs
  | cons c t =>
    by_cases hc : c = '<'
    · subst hc
      rw [matchThinkCloseRep_lt] at h
      rw [List.cons_append, matchThinkCloseRep_lt]
      rw [skipWs_append t R hR]
      cases hsk : skipWs t with
      | nil =>
        cases R with
        | nil => simp at hR
        | cons c2 R2 =>
          simp only [List.head?] at hR
          injection hR with hR
          subst hR
          simp only [List.nil_append]
          rw [if_neg (by decide : ¬('<' = '/'))]
      | cons c2 rr =>
        rw [hsk] at h
        simp only [List.cons_append]
        try dsimp only at h ⊢
        by_cases hc2 : c2 = '/'
        · subst hc2
          rw [if_pos rfl] at h ⊢
          rw [skipWs_append rr R hR]
          exact nameTail_append_none thinkNames thinkNames_no_lt (skipWs rr) R h hR
        · rw [if_neg hc2]
    · rw [List.cons_append]
      exact matchThinkCloseRep_cons_ne c (t ++ R) hc

theorem matchFinalOpenRep_append_none (s R : List Char) (hs : s ≠ [])
    (h : matchFinalOpenRep s = none) (hR : R.head? = some '<') :
    matchFinalOpenRep (s ++ R) = none := by
  cases s with
  | nil => exact absurd rfl hs
  | cons c t =>
    by_cases hc : c = '<'
    · subst hc
      rw [matchFinalOpenRep_lt] at h
      rw [List.cons_append, matchFinalOpenRep_lt]
      rw [skipWs_append t R hR]
      cases hstrip : stripCI ("final").data (skipWs t) with
      | none =>
        rw [stripCI_append_none ("final").data (by decide) (skipWs t) R hstrip hR]
      | some r2 =>
        rw [hstrip] at h
        rw [stripCI_append_some ("final").data (skipWs t) r2 R hstrip]
        dsimp only at h ⊢
        cases hr2 : r2 with
        | nil =>
          cases R with
          | nil => simp at hR
          | cons c2 R2 =>
            simp only [List.head?] at hR
            injection hR with hR
            subst hR
            simp only [List.nil_append]
            rw [show bOkGo ('<' :: R2) = true by simp [bOkGo, isWordChar]]
            simp only [if_true]
            rw [show dropNonAngle ('<' :: R2) = '<' :: R2 by simp [dropNonAngle]]
            simp [expectGt]
        | cons d r3 =>
          rw [hr2] at h
          simp only [List.cons_append]
          have hbOk : bOkGo (d :: (r3 ++ R)) = bOkGo (d :: r3) := rfl
          rw [hbOk]
          by_cases hb : bOkGo (d :: r3) = true
          · rw [if_pos hb] at h ⊢
            cases hexp : expectGt (dropNonAngle (d :: r3)) with
            | some r4 => rw [hexp] at h; exact Option.noConfusion h
            | none =>
              have hda := dropNonAngle_append (d :: r3) R hR
              rw [List.cons_append] at hda
              rw [hda]
              exact expectGt_append_none (dropNonAngle (d :: r3)) R hexp hR
          · rw [if_neg hb]
    · rw [List.cons_append]
      exact matchFinalOpenRep_cons_ne c (t ++ R) hc

theorem mtt_oT (R : List Char) : matchThinkTag ("<think>".data ++ R) = some (false, R) := rfl

theorem mtt_cT (R : List Char) : matchThinkTag ("</think>".data ++ R) = some (true, R) := rfl

theorem mtt_oF (R : List Char) : matchThinkTag ("<final>".data ++ R) = none := rfl

theorem mtt_cF (R : List Char) : matchThinkTag ("</final>".data ++ R) = none := rfl

theorem mft_oF (R : List Char) : matchFinalTag ("<final>".data ++ R) = some (false, R) := rfl

theorem mft_cF (R : List Char) : matchFinalTag ("</final>".data ++ R) = some (true, R) := rfl

theorem mft_oT (R : List Char) : matchFinalTag ("<think>".data ++ R) = none := rfl

theorem mft_cT (R : List Char) : matchFinalTag ("</think>".data ++ R) = none := rfl

theorem mtor_oT (R : List Char) : matchThinkOpenRep ("<think>".data ++ R) = some R := rfl

theorem mtor_cT (R : List Char) : matchThinkOpenRep ("</think>".data ++ R) = none := rfl

theorem mtor_oF (R : List Char) : matchThinkOpenRep ("<final>".data ++ R) = none := rfl

theorem mtor_cF (R : List Char) : matchThinkOpenRep ("</final>".data ++ R) = none := rfl

theorem mtcr_cT (R : List Char) : matchThinkCloseRep ("</think>".data ++ R) = some R := rfl

theorem mtcr_oT (R : List Char) : matchThinkCloseRep ("<think>".data ++ R) = none := rfl

theorem mtcr_oF (R : List Char) : matchThinkCloseRep ("<final>".data ++ R) = none := rfl

theorem mtcr_cF (R : List Char) : matchThinkCloseRep ("</final>".data ++ R) = none := rfl

theorem mfor_oF (R : List Char) : matchFinalOpenRep ("<final>".data ++ R) = some R := rfl

theorem mfor_oT (R : List Char) : matchFinalOpenRep ("<think>".data ++ R) = none := rfl

theorem mfor_cT (R : List Char) : matchFinalOpenRep ("</think>".data ++ R) = none := rfl

theorem mfor_cF (R : List Char) : matchFinalOpenRep ("</final>".data ++ R) = none := rfl

theorem skip_tag_positions (f : List Char → Option (Bool × List Char))
    (hconsne : ∀ c t, c ≠ '<' → f (c :: t) = none)
    (T : List Char)
    (hT : ∀ j, 0 < j → j < T.length → ∀ c, (T.drop j).head? = some c → c ≠ '<')
    (h0 : ∀ R, f (T ++ R) = none) :
    ∀ j, j < T.length → ∀ R, f (T.drop j ++ R) = none := by
  intro j hj R
  rcases Nat.eq_zero_or_pos j with rfl | hpos
  · simpa using h0 R
  · cases hdrop : T.drop j with
    | nil =>
      exfalso
      have := List.length_drop j T
      rw [hdrop] at this
      simp at this
      omega
    | cons c t =>
      rw [List.cons_append]
      refine hconsne c (t ++ R) ?_
      refine hT j hpos hj c ?_
      rw [hdrop]
      rfl

theorem ren_head_lt (it : Itm) (h : Itm.isSg it = false) :
    (Itm.ren it).head? = some '<' := by
  cases it <;> simp_all [Itm.ren, Itm.isSg]

theorem ren_tag_len_pos (it : Itm) (h : Itm.isSg it = false) :
    0 < (Itm.ren it).length := by
  cases it <;> simp_all [Itm.ren, Itm.isSg]

theorem renL_cons (it : Itm) (c : List Itm) : renL (it :: c) = Itm.ren it ++ renL c := rfl

theorem renL_nil : renL [] = [] := rfl

theorem scanGo_seg (f : List Char → Option (Bool × List Char)) (s : List Char) :
    ∀ (R : List Char), (∀ j, j < s.length → f (s.drop j ++ R) = none) →
      ∀ fuel i, (s ++ R).length < fuel →
        scanGo f fuel i (s ++ R) = scanGo f (fuel - s.length) (i + s.length) R := by
  induction s with
  | nil => intro R _ fuel i _; simp
  | cons c t ih =>
    intro R hnone fuel i hfuel
    cases fuel with
    | zero => simp at hfuel
    | succ fu =>
      have h0 : f ((c :: t) ++ R) = none := by
        have := hnone 0 (by simp)
        simpa using this
      rw [List.cons_append, scanGo]
      rw [show f (c :: (t ++ R)) = none from by rw [← List.cons_append]; exact h0]
      have hfu2 : (t ++ R).length < fu := by
        simp only [List.cons_append, List.length_cons, List.length_append] at hfuel
        simp only [List.length_append]
        omega
      have ih2 := ih R (fun j hj => by
          have := hnone (j + 1) (by simpa using Nat.succ_lt_succ hj)
          simpa using this)
        fu (i + 1) hfu2
      rw [ih2]
      have e1 : fu + 1 - (c :: t).length = fu - t.length := by
        simp only [List.length_cons]
        omega
      have e2 : i + (c :: t).length = i + 1 + t.length := by
        simp only [List.length_cons]
        omega
      rw [e1, e2]

theorem scanGo_some (f : List Char → Option (Bool × List Char)) (s : List Char)
    (br : Bool × List Char) (h : f s = some br) (fuel i : Nat) :
    scanGo f (fuel + 1) i s =
      (i, s.length - br.2.length, br.1) ::
        scanGo f fuel (i + (s.length - br.2.length)) br.2 := by
  cases s with
  | nil => rw [scanGo, h]
  | cons c t => rw [scanGo, h]

theorem scanGo_match (f : List Char → Option (Bool × List Char)) (tag R : List Char)
    (b : Bool) (hm : f (tag ++ R) = some (b, R)) (fuel i : Nat) :
    scanGo f (fuel + 1) i (tag ++ R) =
      (i, tag.length, b) :: scanGo f fuel (i + tag.length) R := by
  rw [scanGo_some f (tag ++ R) (b, R) hm fuel i]
  have hl : (tag ++ R).length - R.length = tag.length := by
    simp
  rw [hl]

theorem scanGo_items (f : List Char → Option (Bool × List Char)) (itemM : Itm → Option Bool)
    (hsgM : ∀ s, itemM (Itm.sg s) = none)
    (hbar : ∀ s R, s ≠ [] → f s = none → R.head? = some '<' → f (s ++ R) = none)
    (hemp : f [] = none) :
    ∀ (c : List Itm),
      (∀ it ∈ c, ∀ b, itemM it = some b → ∀ R, f (Itm.ren it ++ R) = some (b, R)) →
      (∀ it ∈ c, Itm.isSg it = false → itemM it = none →
        ∀ j, j < (Itm.ren it).length → ∀ R, f ((Itm.ren it).drop j ++ R) = none) →
      (∀ s, Itm.sg s ∈ c → ∀ j, j < s.length → f (List.drop j s) = none) →
      NormC c →
      ∀ fuel i, (renL c).length < fuel →
        scanGo f fuel i (renL c) = itemMsOf itemM i c := by
  intro c
  induction c with
  | nil =>
    intro _ _ _ _ fuel i hfuel
    rw [renL_nil, itemMsOf]
    cases fuel with
    | zero => simp at hfuel
    | succ fu =>
      rw [scanGo, hemp]
  | cons it c' ih =>
    intro hmatch hskipTag hsegFree hnorm fuel i hfuel
    rw [renL_cons] at hfuel ⊢
    have hmem : it ∈ it :: c' := List.mem_cons_self it c'
    have hnorm' : NormC c' := by
      cases it with
      | sg s => exact hnorm.2.2
      | oT => exact hnorm
      | cT => exact hnorm
      | oF => exact hnorm
      | cF => exact hnorm
    have ihargs := ih (fun x hx => hmatch x (List.mem_cons_of_mem it hx))
      (fun x hx => hskipTag x (List.mem_cons_of_mem it hx))
      (fun s hs => hsegFree s (List.mem_cons_of_mem it hs)) hnorm'
    cases hM : itemM it with
    | some b =>
      have hsg : Itm.isSg it = false := by
        cases it with
        | sg s => rw [hsgM] at hM; exact Option.noConfusion hM
        | oT => rfl
        | cT => rfl
        | oF => rfl
        | cF => rfl
      cases fuel with
      | zero => simp at hfuel
      | succ fu =>
        rw [scanGo_match f (Itm.ren it) (renL c') b (hmatch it hmem b hM (renL c')) fu i]
        rw [itemMsOf, hM]
        congr 1
        refine ihargs fu (i + (Itm.ren it).length) ?_
        have hpos := ren_tag_len_pos it hsg
        simp only [List.length_append] at hfuel
        omega
    | none =>
      have hstep : ∀ j, j < (Itm.ren it).length → f ((Itm.ren it).drop j ++ renL c') = none := by
        cases hsgc : Itm.isSg it with
        | false => exact fun j hj => hskipTag it hmem hsgc hM j hj (renL c')
        | true =>
          cases it with
          | sg s =>
            intro j hj
            simp only [Itm.ren] at hj ⊢
            have hfree := hsegFree s (by exact hmem) j hj
            cases hc' : c' with
            | nil =>
              rw [renL_nil, List.append_nil]
              exact hfree
            | cons it2 c2 =>
              have hhead : (renL (it2 :: c2)).head? = some '<' := by
                have hns : Itm.isSg it2 = false := by
                  have h1 := hnorm.2.1
                  rw [hc'] at h1
                  rcases h1 with h1 | h1
                  · exact List.noConfusion h1
                  · simp only [List.head?, Option.map] at h1
                    injection h1
                rw [renL_cons]
                have hpos := ren_tag_len_pos it2 hns
                cases hr : Itm.ren it2 with
                | nil => rw [hr] at hpos; simp at hpos
                | cons d t2 =>
                  have hd := ren_head_lt it2 hns
                  rw [hr] at hd
                  simp only [List.head?] at hd
                  injection hd with hd
                  subst hd
                  rfl
              have hne : List.drop j s ≠ [] := by
                intro hcon
                have := List.length_drop j s
                rw [hcon] at this
                simp at this
                omega
              exact hbar (List.drop j s) (renL (it2 :: c2)) hne hfree hhead
          | oT => exact absurd hsgc (by decide)
          | cT => exact absurd hsgc (by decide)
          | oF => exact absurd hsgc (by decide)
          | cF => exact absurd hsgc (by decide)
      rw [scanGo_seg f (Itm.ren it) (renL c') hstep fuel i hfuel]
      rw [itemMsOf, hM]
      refine ihargs (fuel - (Itm.ren it).length) (i + (Itm.ren it).length) ?_
      simp only [List.length_append] at hfuel
      omega

theorem joinL_append (a b : List (List Char)) : joinL (a ++ b) = joinL a ++ joinL b := by
  induction a with
  | nil => simp [joinL]
  | cons x xs ih => simp [joinL, ih]

theorem renL_append (a b : List Itm) : renL (a ++ b) = renL a ++ renL b := by
  unfold renL
  rw [List.map_append, joinL_append]

theorem itemMsOf_ge (itemM : Itm → Option Bool) :
    ∀ (c : List Itm) (i : Nat), ∀ m ∈ itemMsOf itemM i c, i ≤ m.1 := by
  intro c
  induction c with
  | nil => intro i m hm; simp [itemMsOf] at hm
  | cons it c' ih =>
    intro i m hm
    rw [itemMsOf] at hm
    cases hM : itemM it with
    | some b =>
      rw [hM] at hm
      rcases List.mem_cons.mp hm with rfl | hm'
      · exact le_refl i
      · exact le_trans (Nat.le_add_right i _) (ih _ m hm')
    | none =>
      rw [hM] at hm
      exact le_trans (Nat.le_add_right i _) (ih _ m hm)

theorem itemMsOf_nil_of (itemM : Itm → Option Bool) :
    ∀ (c : List Itm) (i : Nat), (∀ it ∈ c, itemM it = none) → itemMsOf itemM i c = [] := by
  intro c
  induction c with
  | nil => intro i _; rfl
  | cons it c' ih =>
    intro i h
    rw [itemMsOf, h it (List.mem_cons_self it c')]
    exact ih _ (fun x hx => h x (List.mem_cons_of_mem it hx))

theorem tagFree_think (s : List Char) (h : tagFreeB s = true) (j : Nat) (hj : j < s.length) :
    matchThinkTag (s.drop j) = none := by
  have hx := List.all_eq_true.mp h j (List.mem_range.mpr hj)
  simp only [Bool.and_eq_true, Option.isNone_iff_eq_none] at hx
  exact hx.1.1.1.1

theorem tagFree_final (s : List Char) (h : tagFreeB s = true) (j : Nat) (hj : j < s.length) :
    matchFinalTag (s.drop j) = none := by
  have hx := List.all_eq_true.mp h j (List.mem_range.mpr hj)
  simp only [Bool.and_eq_true, Option.isNone_iff_eq_none] at hx
  exact hx.1.1.1.2

theorem tagFree_tor (s : List Char) (h : tagFreeB s = true) (j : Nat) (hj : j < s.length) :
    matchThinkOpenRep (s.drop j) = none := by
  have hx := List.all_eq_true.mp h j (List.mem_range.mpr hj)
  simp only [Bool.and_eq_true, Option.isNone_iff_eq_none] at hx
  exact hx.1.1.2

theorem tagFree_tcr (s : List Char) (h : tagFreeB s = true) (j : Nat) (hj : j < s.length) :
    matchThinkCloseRep (s.drop j) = none := by
  have hx := List.all_eq_true.mp h j (List.mem_range.mpr hj)
  simp only [Bool.and_eq_true, Option.isNone_iff_eq_none] at hx
  exact hx.1.2

theorem tagFree_for (s : List Char) (h : tagFreeB s = true) (j : Nat) (hj : j < s.length) :
    matchFinalOpenRep (s.drop j) = none := by
  have hx := List.all_eq_true.mp h j (List.mem_range.mpr hj)
  simp only [Bool.and_eq_true, Option.isNone_iff_eq_none] at hx
  exact hx.2

theorem notLt_interior_oT : ∀ j, 0 < j → j < ("<think>".data).length →
    ∀ ch, (("<think>".data).drop j).head? = some ch → ch ≠ '<' := by
  intro j h1 h2 ch hch hcon
  subst hcon
  have hl : ("<think>".data).length = 7 := rfl
  rw [hl] at h2
  interval_cases j <;> exact absurd hch (by decide)

theorem notLt_interior_cT : ∀ j, 0 < j → j < ("</think>".data).length →
    ∀ ch, (("</think>".data).drop j).head? = some ch → ch ≠ '<' := by
  intro j h1 h2 ch hch hcon
  subst hcon
  have hl : ("</think>".data).length = 8 := rfl
  rw [hl] at h2
  interval_cases j <;> exact absurd hch (by decide)

theorem notLt_interior_oF : ∀ j, 0 < j → j < ("<final>".data).length →
    ∀ ch, (("<final>".data).drop j).head? = some ch → ch ≠ '<' := by
  intro j h1 h2 ch hch hcon
  subst hcon
  have hl : ("<final>".data).length = 7 := rfl
  rw [hl] at h2
  interval_cases j <;> exact absurd hch (by decide)

theorem notLt_interior_cF : ∀ j, 0 < j → j < ("</final>".data).length →
    ∀ ch, (("</final>".data).drop j).head? = some ch → ch ≠ '<' := by
  intro j h1 h2 ch hch hcon
  subst hcon
  have hl : ("</final>".data).length = 8 := rfl
  rw [hl] at h2
  interval_cases j <;> exact absurd hch (by decide)

theorem scanAll_items (f : List Char → Option (Bool × List Char)) (itemM : Itm → Option Bool)
    (hsgM : ∀ s, itemM (Itm.sg s) = none)
    (hbar : ∀ s R, s ≠ [] → f s = none → R.head? = some '<' → f (s ++ R) = none)
    (hemp : f [] = none) (c : List Itm)
    (hmatch : ∀ it ∈ c, ∀ b, itemM it = some b → ∀ R, f (Itm.ren it ++ R) = some (b, R))
    (hskip : ∀ it ∈ c, Itm.isSg it = false → itemM it = none →
      ∀ j, j < (Itm.ren it).length → ∀ R, f ((Itm.ren it).drop j ++ R) = none)
    (hseg : ∀ s, Itm.sg s ∈ c → ∀ j, j < s.length → f (List.drop j s) = none)
    (hnorm : NormC c) :
    scanAll f (renL c) = itemMsOf itemM 0 c := by
  unfold scanAll
  exact scanGo_items f itemM hsgM hbar hemp c hmatch hskip hseg hnorm
    ((renL c).length + 1) 0 (Nat.lt_succ_self _)

theorem scanAll_think_c (c : List Itm) (hnorm : NormC c)
    (hseg : ∀ s, Itm.sg s ∈ c → tagFreeB s = true) :
    scanAll matchThinkTag (renL c) = itemMsOf thinkItemM 0 c := by
  refine scanAll_items matchThinkTag thinkItemM (fun s => rfl)
    matchThinkTag_append_none rfl c ?_ ?_ ?_ hnorm
  · intro it _ b hb R
    cases it with
    | oT =>
      injection hb with hb'
      subst hb'
      exact mtt_oT R
    | cT =>
      injection hb with hb'
      subst hb'
      exact mtt_cT R
    | oF => exact Option.noConfusion hb
    | cF => exact Option.noConfusion hb
    | sg s => exact Option.noConfusion hb
  · intro it _ hsg hM j hj R
    cases it with
    | oT => exact Option.noConfusion hM
    | cT => exact Option.noConfusion hM
    | sg s => exact Bool.noConfusion hsg
    | oF =>
      exact skip_tag_positions matchThinkTag matchThinkTag_cons_ne ("<final>".data)
        notLt_interior_oF mtt_oF j hj R
    | cF =>
      exact skip_tag_positions matchThinkTag matchThinkTag_cons_ne ("</final>".data)
        notLt_interior_cF mtt_cF j hj R
  · intro s hs j hj
    exact tagFree_think s (hseg s hs) j hj

theorem scanAll_final_c (c : List Itm) (hnorm : NormC c)
    (hseg : ∀ s, Itm.sg s ∈ c → tagFreeB s = true) :
    scanAll matchFinalTag (renL c) = itemMsOf finalItemM 0 c := by
  refine scanAll_items matchFinalTag finalItemM (fun s => rfl)
    matchFinalTag_append_none rfl c ?_ ?_ ?_ hnorm
  · intro it _ b hb R
    cases it with
    | oF =>
      injection hb with hb'
      subst hb'
      exact mft_oF R
    | cF =>
      injection hb with hb'
      subst hb'
      exact mft_cF R
    | oT => exact Option.noConfusion hb
    | cT => exact Option.noConfusion hb
    | sg s => exact Option.noConfusion hb
  · intro it _ hsg hM j hj R
    cases it with
    | oF => exact Option.noConfusion hM
    | cF => exact Option.noConfusion hM
    | sg s => exact Bool.noConfusion hsg
    | oT =>
      exact skip_tag_positions matchFinalTag matchFinalTag_cons_ne ("<think>".data)
        notLt_interior_oT mft_oT j hj R
    | cT =>
      exact skip_tag_positions matchFinalTag matchFinalTag_cons_ne ("</think>".data)
        notLt_interior_cT mft_cT j hj R
  · intro s hs j hj
    exact tagFree_final s (hseg s hs) j hj

theorem wrapB_eq (g : List Char → Option (List Char)) (t : List Char) :
    wrapB g t = (g t).map (fun r => (false, r)) := rfl

theorem wrapB_none (g : List Char → Option (List Char)) (t : List Char) (h : g t = none) :
    wrapB g t = none := by
  rw [wrapB_eq, h]
  rfl

theorem wrapB_some (g : List Char → Option (List Char)) (t r : List Char) (h : g t = some r) :
    wrapB g t = some (false, r) := by
  rw [wrapB_eq, h]
  rfl

theorem wrapB_none_rev (g : List Char → Option (List Char)) (t : List Char)
    (h : wrapB g t = none) : g t = none := by
  rw [wrapB_eq] at h
  exact Option.map_eq_none'.mp h

theorem scanAll_tor_c (c : List Itm) (hnorm : NormC c)
    (hseg : ∀ s, Itm.sg s ∈ c → tagFreeB s = true) :
    scanAll (wrapB matchThinkOpenRep) (renL c) = itemMsOf torItemM 0 c := by
  refine scanAll_items _ torItemM (fun s => rfl) ?_ (wrapB_none _ _ rfl) c ?_ ?_ ?_ hnorm
  · intro s R hs h hR
    exact wrapB_none _ _ (matchThinkOpenRep_append_none s R hs (wrapB_none_rev _ _ h) hR)
  · intro it _ b hb R
    cases it with
    | oT =>
      injection hb with hb'
      subst hb'
      exact wrapB_some _ _ _ (mtor_oT R)
    | cT => exact Option.noConfusion hb
    | oF => exact Option.noConfusion hb
    | cF => exact Option.noConfusion hb
    | sg s => exact Option.noConfusion hb
  · intro it _ hsg hM j hj R
    cases it with
    | oT => exact Option.noConfusion hM
    | sg s => exact Bool.noConfusion hsg
    | cT =>
      refine skip_tag_positions (wrapB matchThinkOpenRep) ?_ ("</think>".data)
        notLt_interior_cT (fun R2 => wrapB_none _ _ (mtor_cT R2)) j hj R
      intro ch t hch
      exact wrapB_none _ _ (matchThinkOpenRep_cons_ne ch t hch)
    | oF =>
      refine skip_tag_positions (wrapB matchThinkOpenRep) ?_ ("<final>".data)
        notLt_interior_oF (fun R2 => wrapB_none _ _ (mtor_oF R2)) j hj R
      intro ch t hch
      exact wrapB_none _ _ (matchThinkOpenRep_cons_ne ch t hch)
    | cF =>
      refine skip_tag_positions (wrapB matchThinkOpenRep) ?_ ("</final>".data)
        notLt_interior_cF (fun R2 => wrapB_none _ _ (mtor_cF R2)) j hj R
      intro ch t hch
      exact wrapB_none _ _ (matchThinkOpenRep_cons_ne ch t hch)
  · intro s hs j hj
    exact wrapB_none _ _ (tagFree_tor s (hseg s hs) j hj)

theorem scanAll_tcr_c (c : List Itm) (hnorm : NormC c)
    (hseg : ∀ s, Itm.sg s ∈ c → tagFreeB s = true) :
    scanAll (wrapB matchThinkCloseRep) (renL c) = itemMsOf tcrItemM 0 c := by
  refine scanAll_items _ tcrItemM (fun s => rfl) ?_ (wrapB_none _ _ rfl) c ?_ ?_ ?_ hnorm
  · intro s R hs h hR
    exact wrapB_none _ _ (matchThinkCloseRep_append_none s R hs (wrapB_none_rev _ _ h) hR)
  · intro it _ b hb R
    cases it with
    | cT =>
      injection hb with hb'
      subst hb'
      exact wrapB_some _ _ _ (mtcr_cT R)
    | oT => exact Option.noConfusion hb
    | oF => exact Option.noConfusion hb
    | cF => exact Option.noConfusion hb
    | sg s => exact Option.noConfusion hb
  · intro it _ hsg hM j hj R
    cases it with
    | cT => exact Option.noConfusion hM
    | sg s => exact Bool.noConfusion hsg
    | oT =>
      refine skip_tag_positions (wrapB matchThinkCloseRep) ?_ ("<think>".data)
        notLt_interior_oT (fun R2 => wrapB_none _ _ (mtcr_oT R2)) j hj R
      intro ch t hch
      exact wrapB_none _ _ (matchThinkCloseRep_cons_ne ch t hch)
    | oF =>
      refine skip_tag_positions (wrapB matchThinkCloseRep) ?_ ("<final>".data)
        notLt_interior_oF (fun R2 => wrapB_none _ _ (mtcr_oF R2)) j hj R
      intro ch t hch
      exact wrapB_none _ _ (matchThinkCloseRep_cons_ne ch t hch)
    | cF =>
      refine skip_tag_positions (wrapB matchThinkCloseRep) ?_ ("</final>".data)
        notLt_interior_cF (fun R2 => wrapB_none _ _ (mtcr_cF R2)) j hj R
      intro ch t hch
      exact wrapB_none _ _ (matchThinkCloseRep_cons_ne ch t hch)
  · intro s hs j hj
    exact wrapB_none _ _ (tagFree_tcr s (hseg s hs) j hj)

theorem scanAll_for_c (c : List Itm) (hnorm : NormC c)
    (hseg : ∀ s, Itm.sg s ∈ c → tagFreeB s = true) :
    scanAll (wrapB matchFinalOpenRep) (renL c) = itemMsOf forItemM 0 c := by
  refine scanAll_items _ forItemM (fun s => rfl) ?_ (wrapB_none _ _ rfl) c ?_ ?_ ?_ hnorm
  · intro s R hs h hR
    exact wrapB_none _ _ (matchFinalOpenRep_append_none s R hs (wrapB_none_rev _ _ h) hR)
  · intro it _ b hb R
    cases it with
    | oF =>
      injection hb with hb'
      subst hb'
      exact wrapB_some _ _ _ (mfor_oF R)
    | oT => exact Option.noConfusion hb
    | cT => exact Option.noConfusion hb
    | cF => exact Option.noConfusion hb
    | sg s => exact Option.noConfusion hb
  · intro it _ hsg hM j hj R
    cases it with
    | oF => exact Option.noConfusion hM
    | sg s => exact Bool.noConfusion hsg
    | oT =>
      refine skip_tag_positions (wrapB matchFinalOpenRep) ?_ ("<think>".data)
        notLt_interior_oT (fun R2 => wrapB_none _ _ (mfor_oT R2)) j hj R
      intro ch t hch
      exact wrapB_none _ _ (matchFinalOpenRep_cons_ne ch t hch)
    | cT =>
      refine skip_tag_positions (wrapB matchFinalOpenRep) ?_ ("</think>".data)
        notLt_interior_cT (fun R2 => wrapB_none _ _ (mfor_cT R2)) j hj R
      intro ch t hch
      exact wrapB_none _ _ (matchFinalOpenRep_cons_ne ch t hch)
    | cF =>
      refine skip_tag_positions (wrapB matchFinalOpenRep) ?_ ("</final>".data)
        notLt_interior_cF (fun R2 => wrapB_none _ _ (mfor_cF R2)) j hj R
      intro ch t hch
      exact wrapB_none _ _ (matchFinalOpenRep_cons_ne ch t hch)
  · intro s hs j hj
    exact wrapB_none _ _ (tagFree_for s (hseg s hs) j hj)

theorem srch_eq (g : List Char → Option (List Char)) (s : List Char) :
    srch g s = match scanAll (wrapB g) s with
      | [] => none
      | (i, l, _) :: _ => some (i, l) := rfl

theorem orphanGo_cons_eq (sawOpen : Bool) (acc : Option Nat) (i l : Nat) (isC : Bool)
    (ms : List (Nat × Nat × Bool)) :
    orphanGo sawOpen acc ((i, l, isC) :: ms) =
      orphanGo (if isC then sawOpen else true)
        (if isC ∧ !sawOpen then some (i + l) else acc) ms := rfl

theorem orphanGo_true (ms : List (Nat × Nat × Bool)) : ∀ acc, orphanGo true acc ms = acc := by
  induction ms with
  | nil => intro acc; rfl
  | cons m tl ih =>
    intro acc
    obtain ⟨i, l, isC⟩ := m
    rw [orphanGo_cons_eq]
    have h1 : (if isC then true else true) = true := ite_self _
    have h2 : (if isC ∧ !true then some (i + l) else acc) = acc := by simp
    rw [h1, h2]
    exact ih acc

theorem orphanGo_path : ∀ (a : Ph × List (List Char) × List (List Char)) (c : List Itm)
    (b : Ph × List (List Char) × List (List Char)), CPath a c b →
    ∀ (i : Nat) (acc : Option Nat),
      orphanGo (stOf a.1).thinking acc (itemMsOf thinkItemM i c) = acc := by
  intro a c b path
  induction path with
  | nil a => intro i acc; rfl
  | oT rs fs c b hp ih =>
    intro i acc
    have hms : itemMsOf thinkItemM i (Itm.oT :: c) =
        (i, 7, false) :: itemMsOf thinkItemM (i + 7) c := rfl
    rw [hms, orphanGo_cons_eq]
    have h1 : (if (false : Bool) then (stOf (Ph.p0, rs, fs).1).thinking else true) = true := by
      simp
    have h2 : (if (false : Bool) ∧ !(stOf (Ph.p0, rs, fs).1).thinking then some (i + 7)
        else acc) = acc := by simp
    rw [h1, h2]
    exact orphanGo_true _ acc
  | sgT s rs fs c b htf hp ih =>
    intro i acc
    exact orphanGo_true _ acc
  | cT fs c b hp ih =>
    intro i acc
    exact orphanGo_true _ acc
  | oF fs c b hp ih =>
    intro i acc
    exact ih (i + 7) acc
  | sgF s fs c b htf hp ih =>
    intro i acc
    exact ih (i + s.length) acc
  | cF c b hp ih =>
    intro i acc
    exact ih (i + 8) acc

theorem stripGo_nil_eq (s : List Char) (lastIdx : Nat) (inT : Bool) (acc : List Char) :
    stripGo s lastIdx inT acc [] = (if inT then acc else acc ++ s.drop lastIdx, inT) := rfl

theorem stripGo_cons_eq (s : List Char) (lastIdx : Nat) (inT : Bool) (acc : List Char)
    (i l : Nat) (isC : Bool) (ms : List (Nat × Nat × Bool)) :
    stripGo s lastIdx inT acc ((i, l, isC) :: ms) =
      stripGo s (i + l) (!isC)
        (if inT then acc else acc ++ (s.drop lastIdx).take (i - lastIdx)) ms := rfl

theorem stripGo_advance (pre mid rest acc : List Char) (inT : Bool)
    (ms : List (Nat × Nat × Bool)) (h : ∀ m ∈ ms, pre.length + mid.length ≤ m.1) :
    stripGo (pre ++ (mid ++ rest)) pre.length inT acc ms =
      stripGo (pre ++ (mid ++ rest)) (pre.length + mid.length) inT
        (acc ++ if inT then [] else mid) ms := by
  have h1 : (pre ++ (mid ++ rest)).drop pre.length = mid ++ rest := List.drop_left _ _
  have h2 : (pre ++ (mid ++ rest)).drop (pre.length + mid.length) = rest := by
    rw [← List.append_assoc, ← List.length_append]
    exact List.drop_left _ _
  cases ms with
  | nil =>
    rw [stripGo_nil_eq, stripGo_nil_eq, h1, h2]
    cases inT with
    | true => simp
    | false => simp [List.append_assoc]
  | cons m tl =>
    obtain ⟨i, l, isC⟩ := m
    have hi : pre.length + mid.length ≤ i := h _ (List.mem_cons_self _ _)
    rw [stripGo_cons_eq, stripGo_cons_eq]
    cases inT with
    | true => simp
    | false =>
      have hAB : acc ++ ((pre ++ (mid ++ rest)).drop pre.length).take (i - pre.length) =
          (acc ++ mid) ++
            ((pre ++ (mid ++ rest)).drop (pre.length + mid.length)).take
              (i - (pre.length + mid.length)) := by
        rw [h1, h2, List.append_assoc]
        have e3 : i - pre.length = mid.length + (i - (pre.length + mid.length)) := by omega
        rw [e3, List.take_append]
      simp only [Bool.false_eq_true, if_false]
      rw [hAB]

theorem stripGo_fold : ∀ (c : List Itm) (pre acc : List Char) (inT : Bool),
    stripGo (pre ++ renL c) pre.length inT acc (itemMsOf thinkItemM pre.length c) =
      (acc ++ renL (keep inT c), endT inT c) := by
  intro c
  induction c with
  | nil =>
    intro pre acc inT
    have hms : itemMsOf thinkItemM pre.length ([] : List Itm) = [] := rfl
    rw [hms, stripGo_nil_eq]
    have hdrop : (pre ++ renL []).drop pre.length = [] := by
      rw [renL_nil]
      exact List.drop_left' rfl
    rw [hdrop]
    simp [keep, endT, renL_nil]
  | cons it c' ih =>
    intro pre acc inT
    cases it with
    | oT =>
      have hms : itemMsOf thinkItemM pre.length (Itm.oT :: c') =
          (pre.length, 7, false) :: itemMsOf thinkItemM (pre.length + 7) c' := rfl
      rw [hms, stripGo_cons_eq]
      have hacc : (if inT then acc
          else acc ++ ((pre ++ renL (Itm.oT :: c')).drop pre.length).take
            (pre.length - pre.length)) = acc := by
        cases inT <;> simp
      rw [hacc]
      have hs : pre ++ renL (Itm.oT :: c') = (pre ++ "<think>".data) ++ renL c' := by
        rw [renL_cons, ← List.append_assoc]
        rfl
      have hlen : pre.length + 7 = (pre ++ "<think>".data).length := by simp
      rw [hs, hlen, Bool.not_false]
      rw [ih (pre ++ "<think>".data) acc true]
      simp [keep, endT]
    | cT =>
      have hms : itemMsOf thinkItemM pre.length (Itm.cT :: c') =
          (pre.length, 8, true) :: itemMsOf thinkItemM (pre.length + 8) c' := rfl
      rw [hms, stripGo_cons_eq]
      have hacc : (if inT then acc
          else acc ++ ((pre ++ renL (Itm.cT :: c')).drop pre.length).take
            (pre.length - pre.length)) = acc := by
        cases inT <;> simp
      rw [hacc]
      have hs : pre ++ renL (Itm.cT :: c') = (pre ++ "</think>".data) ++ renL c' := by
        rw [renL_cons, ← List.append_assoc]
        rfl
      have hlen : pre.length + 8 = (pre ++ "</think>".data).length := by simp
      rw [hs, hlen, Bool.not_true]
      rw [ih (pre ++ "</think>".data) acc false]
      simp [keep, endT]
    | sg s =>
      have hms : itemMsOf thinkItemM pre.length (Itm.sg s :: c') =
          itemMsOf thinkItemM (pre.length + s.length) c' := rfl
      rw [hms]
      have hs : pre ++ renL (Itm.sg s :: c') = pre ++ (s ++ renL c') := by
        rw [renL_cons]
        rfl
      rw [hs]
      have hge : ∀ m ∈ itemMsOf thinkItemM (pre.length + s.length) c',
          pre.length + s.length ≤ m.1 := itemMsOf_ge thinkItemM c' (pre.length + s.length)
      rw [stripGo_advance pre s (renL c') acc inT _ hge]
      have hs2 : pre ++ (s ++ renL c') = (pre ++ s) ++ renL c' := by
        rw [List.append_assoc]
      have hlen : pre.length + s.length = (pre ++ s).length := by simp
      rw [hs2, hlen]
      rw [ih (pre ++ s) (acc ++ if inT then [] else s) inT]
      cases inT <;> simp [keep, endT, renL_cons, Itm.ren, List.append_assoc]
    | oF =>
      have hms : itemMsOf thinkItemM pre.length (Itm.oF :: c') =
          itemMsOf thinkItemM (pre.length + ("<final>".data).length) c' := rfl
      rw [hms]
      have hs : pre ++ renL (Itm.oF :: c') = pre ++ ("<final>".data ++ renL c') := by
        rw [renL_cons]
        rfl
      rw [hs]
      have hge : ∀ m ∈ itemMsOf thinkItemM (pre.length + ("<final>".data).length) c',
          pre.length + ("<final>".data).length ≤ m.1 :=
        itemMsOf_ge thinkItemM c' _
      rw [stripGo_advance pre ("<final>".data) (renL c') acc inT _ hge]
      have hs2 : pre ++ ("<final>".data ++ renL c') = (pre ++ "<final>".data) ++ renL c' := by
        rw [List.append_assoc]
      have hlen : pre.length + ("<final>".data).length = (pre ++ "<final>".data).length := by
        simp
      rw [hs2, hlen]
      rw [ih (pre ++ "<final>".data) (acc ++ if inT then [] else "<final>".data) inT]
      cases inT <;> simp [keep, endT, renL_cons, Itm.ren, List.append_assoc]
    | cF =>
      have hms : itemMsOf thinkItemM pre.length (Itm.cF :: c') =
          itemMsOf thinkItemM (pre.length + ("</final>".data).length) c' := rfl
      rw [hms]
      have hs : pre ++ renL (Itm.cF :: c') = pre ++ ("</final>".data ++ renL c') := by
        rw [renL_cons]
        rfl
      rw [hs]
      have hge : ∀ m ∈ itemMsOf thinkItemM (pre.length + ("</final>".data).length) c',
          pre.length + ("</final>".data).length ≤ m.1 :=
        itemMsOf_ge thinkItemM c' _
      rw [stripGo_advance pre ("</final>".data) (renL c') acc inT _ hge]
      have hs2 : pre ++ ("</final>".data ++ renL c') = (pre ++ "</final>".data) ++ renL c' := by
        rw [List.append_assoc]
      have hlen : pre.length + ("</final>".data).length = (pre ++ "</final>".data).length := by
        simp
      rw [hs2, hlen]
      rw [ih (pre ++ "</final>".data) (acc ++ if inT then [] else "</final>".data) inT]
      cases inT <;> simp [keep, endT, renL_cons, Itm.ren, List.append_assoc]

theorem finGo_nil_eq (s : List Char) (lastIdx : Nat) (inF ever : Bool) (acc : List Char) :
    finGo s lastIdx inF ever acc [] =
      (if inF then acc ++ s.drop lastIdx else acc, inF, ever) := rfl

theorem finGo_cons_eq (s : List Char) (lastIdx : Nat) (inF ever : Bool) (acc : List Char)
    (i l : Nat) (isC : Bool) (ms : List (Nat × Nat × Bool)) :
    finGo s lastIdx inF ever acc ((i, l, isC) :: ms) =
      if !inF ∧ !isC then finGo s (i + l) true true acc ms
      else if inF ∧ isC then
        finGo s (i + l) false ever (acc ++ (s.drop lastIdx).take (i - lastIdx)) ms
      else finGo s lastIdx inF ever acc ms := rfl

theorem FPath_first (inF : Bool) (c : List Itm) (b : Bool) (hp : FPath inF c b) :
    ∀ (i i2 l : Nat) (b2 : Bool) (tl : List (Nat × Nat × Bool)),
      itemMsOf finalItemM i c = (i2, l, b2) :: tl → b2 = inF := by
  induction hp with
  | nil b =>
    intro i i2 l b2 tl h
    exact absurd h (by simp [itemMsOf])
  | oF c b hp ih =>
    intro i i2 l b2 tl h
    have hms : itemMsOf finalItemM i (Itm.oF :: c) =
        (i, 7, false) :: itemMsOf finalItemM (i + 7) c := rfl
    rw [hms] at h
    simp only [List.cons.injEq, Prod.mk.injEq] at h
    exact h.1.2.2.symm
  | cF c b hp ih =>
    intro i i2 l b2 tl h
    have hms : itemMsOf finalItemM i (Itm.cF :: c) =
        (i, 8, true) :: itemMsOf finalItemM (i + 8) c := rfl
    rw [hms] at h
    simp only [List.cons.injEq, Prod.mk.injEq] at h
    exact h.1.2.2.symm
  | sg s inF c b hp ih =>
    intro i i2 l b2 tl h
    have hms : itemMsOf finalItemM i (Itm.sg s :: c) =
        itemMsOf finalItemM (i + s.length) c := rfl
    rw [hms] at h
    exact ih _ _ _ _ _ h

theorem finGo_advance (pre mid rest acc : List Char) (inF ever : Bool)
    (ms : List (Nat × Nat × Bool))
    (hge : ∀ m ∈ ms, pre.length + mid.length ≤ m.1)
    (hhead : ∀ i l b2 tl, ms = (i, l, b2) :: tl → b2 = inF) :
    finGo (pre ++ (mid ++ rest)) pre.length inF ever acc ms =
      finGo (pre ++ (mid ++ rest)) (pre.length + mid.length) inF ever
        (acc ++ if inF then mid else []) ms := by
  have h1 : (pre ++ (mid ++ rest)).drop pre.length = mid ++ rest := List.drop_left _ _
  have h2 : (pre ++ (mid ++ rest)).drop (pre.length + mid.length) = rest := by
    rw [← List.append_assoc, ← List.length_append]
    exact List.drop_left _ _
  cases ms with
  | nil =>
    rw [finGo_nil_eq, finGo_nil_eq, h1, h2]
    cases inF <;> simp [List.append_assoc]
  | cons m tl =>
    obtain ⟨i, l, isC⟩ := m
    have hb : isC = inF := hhead i l isC tl rfl
    subst hb
    have hi : pre.length + mid.length ≤ i := hge _ (List.mem_cons_self _ _)
    rw [finGo_cons_eq, finGo_cons_eq]
    cases isC with
    | false =>
      have hc1 : ((!(false : Bool)) = true ∧ (!(false : Bool)) = true) := by simp
      rw [if_pos hc1, if_pos hc1]
      simp
    | true =>
      have hc1 : ¬((!(true : Bool)) = true ∧ (!(true : Bool)) = true) := by simp
      rw [if_neg hc1, if_neg hc1]
      have hc2 : ((true : Bool) = true ∧ (true : Bool) = true) := by simp
      rw [if_pos hc2, if_pos hc2]
      have he : (acc ++ if (true : Bool) then mid else []) = acc ++ mid := by simp
      rw [he]
      have hAB : acc ++ ((pre ++ (mid ++ rest)).drop pre.length).take (i - pre.length) =
          (acc ++ mid) ++
            ((pre ++ (mid ++ rest)).drop (pre.length + mid.length)).take
              (i - (pre.length + mid.length)) := by
        rw [h1, h2, List.append_assoc]
        have e3 : i - pre.length = mid.length + (i - (pre.length + mid.length)) := by omega
        rw [e3, List.take_append]
      rw [hAB]

theorem finGo_fold (inF : Bool) (c : List Itm) (endb : Bool) (hp : FPath inF c endb) :
    ∀ (pre acc : List Char) (ever : Bool),
      finGo (pre ++ renL c) pre.length inF ever acc (itemMsOf finalItemM pre.length c) =
        (acc ++ finEmit inF c, endb, ever || hasOF c) := by
  induction hp with
  | nil b =>
    intro pre acc ever
    rw [show itemMsOf finalItemM pre.length ([] : List Itm) = [] from rfl, finGo_nil_eq]
    have hdrop : (pre ++ renL []).drop pre.length = [] := by
      rw [renL_nil]
      exact List.drop_left' rfl
    rw [hdrop]
    cases b <;> simp [finEmit, hasOF]
  | oF c b hp ih =>
    intro pre acc ever
    have hms : itemMsOf finalItemM pre.length (Itm.oF :: c) =
        (pre.length, 7, false) :: itemMsOf finalItemM (pre.length + 7) c := rfl
    rw [hms, finGo_cons_eq]
    have hc1 : ((!(false : Bool)) = true ∧ (!(false : Bool)) = true) := by simp
    rw [if_pos hc1]
    have hs : pre ++ renL (Itm.oF :: c) = (pre ++ "<final>".data) ++ renL c := by
      rw [renL_cons, ← List.append_assoc]
      rfl
    have hlen : pre.length + 7 = (pre ++ "<final>".data).length := by simp
    rw [hs, hlen, ih (pre ++ "<final>".data) acc true]
    simp [finEmit, hasOF]
  | cF c b hp ih =>
    intro pre acc ever
    have hms : itemMsOf finalItemM pre.length (Itm.cF :: c) =
        (pre.length, 8, true) :: itemMsOf finalItemM (pre.length + 8) c := rfl
    rw [hms, finGo_cons_eq]
    have hc1 : ¬((!(true : Bool)) = true ∧ (!(true : Bool)) = true) := by simp
    rw [if_neg hc1]
    have hc2 : ((true : Bool) = true ∧ (true : Bool) = true) := by simp
    rw [if_pos hc2]
    have hacc : acc ++ ((pre ++ renL (Itm.cF :: c)).drop pre.length).take
        (pre.length - pre.length) = acc := by
      simp
    rw [hacc]
    have hs : pre ++ renL (Itm.cF :: c) = (pre ++ "</final>".data) ++ renL c := by
      rw [renL_cons, ← List.append_assoc]
      rfl
    have hlen : pre.length + 8 = (pre ++ "</final>".data).length := by simp
    rw [hs, hlen, ih (pre ++ "</final>".data) acc ever]
    simp [finEmit, hasOF]
  | sg s inF c b hp ih =>
    intro pre acc ever
    have hms : itemMsOf finalItemM pre.length (Itm.sg s :: c) =
        itemMsOf finalItemM (pre.length + s.length) c := rfl
    rw [hms]
    have hs : pre ++ renL (Itm.sg s :: c) = pre ++ (s ++ renL c) := by
      rw [renL_cons]
      rfl
    rw [hs]
    have hge := itemMsOf_ge finalItemM c (pre.length + s.length)
    have hhd : ∀ i l b2 tl,
        itemMsOf finalItemM (pre.length + s.length) c = (i, l, b2) :: tl → b2 = inF :=
      fun i l b2 tl h => FPath_first inF c b hp (pre.length + s.length) i l b2 tl h
    rw [finGo_advance pre s (renL c) acc inF ever _ hge hhd]
    have hs2 : pre ++ (s ++ renL c) = (pre ++ s) ++ renL c := by
      rw [List.append_assoc]
    have hlen : pre.length + s.length = (pre ++ s).length := by simp
    rw [hs2, hlen, ih (pre ++ s) (acc ++ if inF then s else []) ever]
    cases inF <;> simp [finEmit, hasOF, List.append_assoc]

theorem cleanGo_nil_eq (s : List Char) (lastIdx : Nat) (acc : List Char) :
    cleanGo s lastIdx acc [] = acc ++ s.drop lastIdx := rfl

theorem scanAll_tagFree (f : List Char → Option (Bool × List Char)) (hemp : f [] = none)
    (s : List Char) (hs : ∀ j, j < s.length → f (s.drop j) = none) :
    scanAll f s = [] := by
  have h1 := scanGo_seg f s [] (fun j hj => by rw [List.append_nil]; exact hs j hj)
    (s.length + 1) 0 (by simp)
  rw [List.append_nil] at h1
  have e : s.length + 1 - s.length = 0 + 1 := by omega
  rw [e] at h1
  have h2 : scanGo f (0 + 1) (0 + s.length) [] = [] := by
    rw [scanGo, hemp]
  unfold scanAll
  rw [h1, h2]

theorem finEmit_nil_of_noOF : ∀ (c : List Itm), hasOF c = false → finEmit false c = [] := by
  intro c
  induction c with
  | nil => intro h; rfl
  | cons it c' ih =>
    intro h
    cases it with
    | oF => exact absurd h (by simp [hasOF])
    | oT =>
      rw [show hasOF (Itm.oT :: c') = hasOF c' from rfl] at h
      rw [show finEmit false (Itm.oT :: c') = finEmit false c' from rfl]
      exact ih h
    | cT =>
      rw [show hasOF (Itm.cT :: c') = hasOF c' from rfl] at h
      rw [show finEmit false (Itm.cT :: c') = finEmit false c' from rfl]
      exact ih h
    | cF =>
      rw [show hasOF (Itm.cF :: c') = hasOF c' from rfl] at h
      rw [show finEmit false (Itm.cF :: c') = finEmit false c' from rfl]
      exact ih h
    | sg s =>
      rw [show hasOF (Itm.sg s :: c') = hasOF c' from rfl] at h
      have he : finEmit false (Itm.sg s :: c') =
          (if false then s else []) ++ finEmit false c' := rfl
      rw [he]
      simp [ih h]

theorem keep_sublist : ∀ (c : List Itm) (inT : Bool), List.Sublist (keep inT c) c := by
  intro c
  induction c with
  | nil =>
    intro inT
    rw [show keep inT [] = [] from rfl]
  | cons it c' ih =>
    intro inT
    cases it with
    | oT =>
      rw [show keep inT (Itm.oT :: c') = keep true c' from by cases inT <;> rfl]
      exact List.Sublist.cons _ (ih true)
    | cT =>
      rw [show keep inT (Itm.cT :: c') = keep false c' from by cases inT <;> rfl]
      exact List.Sublist.cons _ (ih false)
    | oF =>
      cases inT with
      | true =>
        rw [show keep true (Itm.oF :: c') = keep true c' from rfl]
        exact List.Sublist.cons _ (ih true)
      | false =>
        rw [show keep false (Itm.oF :: c') = Itm.oF :: keep false c' from rfl]
        exact List.Sublist.cons₂ _ (ih false)
    | cF =>
      cases inT with
      | true =>
        rw [show keep true (Itm.cF :: c') = keep true c' from rfl]
        exact List.Sublist.cons _ (ih true)
      | false =>
        rw [show keep false (Itm.cF :: c') = Itm.cF :: keep false c' from rfl]
        exact List.Sublist.cons₂ _ (ih false)
    | sg s =>
      cases inT with
      | true =>
        rw [show keep true (Itm.sg s :: c') = keep true c' from rfl]
        exact List.Sublist.cons _ (ih true)
      | false =>
        rw [show keep false (Itm.sg s :: c') = Itm.sg s :: keep false c' from rfl]
        exact List.Sublist.cons₂ _ (ih false)

theorem path_segs_tagFree : ∀ (a : Ph × List (List Char) × List (List Char)) (c : List Itm)
    (b : Ph × List (List Char) × List (List Char)), CPath a c b →
    ∀ s, Itm.sg s ∈ c → tagFreeB s = true := by
  intro a c b path
  induction path with
  | nil a => intro s hs; simp at hs
  | oT rs fs c b hp ih =>
    intro s hs
    rcases List.mem_cons.mp hs with h | h
    · exact Itm.noConfusion h
    · exact ih s h
  | sgT s0 rs fs c b htf hp ih =>
    intro s hs
    rcases List.mem_cons.mp hs with h | h
    · injection h with h'
      rw [h']
      exact htf
    · exact ih s h
  | cT fs c b hp ih =>
    intro s hs
    rcases List.mem_cons.mp hs with h | h
    · exact Itm.noConfusion h
    · exact ih s h
  | oF fs c b hp ih =>
    intro s hs
    rcases List.mem_cons.mp hs with h | h
    · exact Itm.noConfusion h
    · exact ih s h
  | sgF s0 fs c b htf hp ih =>
    intro s hs
    rcases List.mem_cons.mp hs with h | h
    · injection h with h'
      rw [h']
      exact htf
    · exact ih s h
  | cF c b hp ih =>
    intro s hs
    rcases List.mem_cons.mp hs with h | h
    · exact Itm.noConfusion h
    · exact ih s h

theorem path_endT : ∀ (a : Ph × List (List Char) × List (List Char)) (c : List Itm)
    (b : Ph × List (List Char) × List (List Char)), CPath a c b →
    endT (stOf a.1).thinking c = (stOf b.1).thinking := by
  intro a c b path
  induction path with
  | nil a => rfl
  | oT rs fs c b hp ih =>
    rw [show endT (stOf (Ph.p0, rs, fs).1).thinking (Itm.oT :: c) = endT true c from rfl]
    exact ih
  | sgT s rs fs c b htf hp ih =>
    rw [show endT (stOf (Ph.pT, s :: rs, fs).1).thinking (Itm.sg s :: c) =
      endT true c from rfl]
    exact ih
  | cT fs c b hp ih =>
    rw [show endT (stOf (Ph.pT, [], fs).1).thinking (Itm.cT :: c) = endT false c from rfl]
    exact ih
  | oF fs c b hp ih =>
    rw [show endT (stOf (Ph.pB, [], fs).1).thinking (Itm.oF :: c) = endT false c from rfl]
    exact ih
  | sgF s fs c b htf hp ih =>
    rw [show endT (stOf (Ph.pF, [], s :: fs).1).thinking (Itm.sg s :: c) =
      endT false c from rfl]
    exact ih
  | cF c b hp ih =>
    rw [show endT (stOf (Ph.pF, [], []).1).thinking (Itm.cF :: c) = endT false c from rfl]
    exact ih

theorem path_FPath : ∀ (a : Ph × List (List Char) × List (List Char)) (c : List Itm)
    (b : Ph × List (List Char) × List (List Char)), CPath a c b →
    FPath (stOf a.1).final (keep (stOf a.1).thinking c) (stOf b.1).final := by
  intro a c b path
  induction path with
  | nil a => exact FPath.nil _
  | oT rs fs c b hp ih => exact ih
  | sgT s rs fs c b htf hp ih => exact ih
  | cT fs c b hp ih => exact ih
  | oF fs c b hp ih => exact FPath.oF _ _ ih
  | sgF s fs c b htf hp ih => exact FPath.sg s true _ _ ih
  | cF c b hp ih => exact FPath.cF _ _ ih

theorem path_NormC_keep : ∀ (a : Ph × List (List Char) × List (List Char)) (c : List Itm)
    (b : Ph × List (List Char) × List (List Char)), CPath a c b →
    NormC c → NormC (keep (stOf a.1).thinking c) := by
  intro a c b path
  induction path with
  | nil a => intro _; exact trivial
  | oT rs fs c b hp ih => intro h; exact ih h
  | sgT s rs fs c b htf hp ih => intro h; exact ih h.2.2
  | cT fs c b hp ih => intro h; exact ih h
  | oF fs c b hp ih => intro h; exact ih h
  | sgF s fs c b htf hp ih =>
    intro h
    refine ⟨htf, ?_, ih h.2.2⟩
    cases hp with
    | nil =>
      left
      rfl
    | sgF s2 fs2 c2 b2 htf2 hp2 =>
      exfalso
      rcases h.2.1 with hc | hc
      · exact List.noConfusion hc
      · simp [Itm.isSg] at hc
    | cF c2 b2 hp2 =>
      right
      rfl
  | cF c b hp ih => intro h; exact ih h

theorem path_emit : ∀ (a : Ph × List (List Char) × List (List Char)) (c : List Itm)
    (b : Ph × List (List Char) × List (List Char)), CPath a c b → NormC c →
    ∃ used, a.2.2 = used ++ b.2.2 ∧
      finEmit (stOf a.1).final (keep (stOf a.1).thinking c) = joinL used ∧
      tagFreeB (joinL used) = true := by
  intro a c b path
  induction path with
  | nil a => intro _; exact ⟨[], rfl, rfl, by decide⟩
  | oT rs fs c b hp ih => intro h; exact ih h
  | sgT s rs fs c b htf hp ih => intro h; exact ih h.2.2
  | cT fs c b hp ih => intro h; exact ih h
  | oF fs c b hp ih => intro h; exact ih h
  | sgF s fs c b htf hp ih =>
    intro h
    cases hp with
    | nil =>
      refine ⟨[s], rfl, rfl, ?_⟩
      rw [show joinL [s] = s ++ [] from rfl, List.append_nil]
      exact htf
    | sgF s2 fs2 c2 b2 htf2 hp2 =>
      exfalso
      rcases h.2.1 with hc | hc
      · exact List.noConfusion hc
      · simp [Itm.isSg] at hc
    | cF c2 b2 hp2 =>
      cases hp2 with
      | nil =>
        refine ⟨[s], rfl, rfl, ?_⟩
        rw [show joinL [s] = s ++ [] from rfl, List.append_nil]
        exact htf
  | cF c b hp ih => intro h; exact ih h

theorem CPath_split : ∀ (c₁ c₂ : List Itm) (a b : Ph × List (List Char) × List (List Char)),
    CPath a (c₁ ++ c₂) b → ∃ m, CPath a c₁ m ∧ CPath m c₂ b := by
  intro c₁
  induction c₁ with
  | nil => intro c₂ a b h; exact ⟨a, CPath.nil a, h⟩
  | cons it c₁' ih =>
    intro c₂ a b h
    cases h with
    | oT rs fs cc bb hp =>
      obtain ⟨m, h1, h2⟩ := ih c₂ _ _ hp
      exact ⟨m, CPath.oT rs fs c₁' m h1, h2⟩
    | sgT s rs fs cc bb htf hp =>
      obtain ⟨m, h1, h2⟩ := ih c₂ _ _ hp
      exact ⟨m, CPath.sgT s rs fs c₁' m htf h1, h2⟩
    | cT fs cc bb hp =>
      obtain ⟨m, h1, h2⟩ := ih c₂ _ _ hp
      exact ⟨m, CPath.cT fs c₁' m h1, h2⟩
    | oF fs cc bb hp =>
      obtain ⟨m, h1, h2⟩ := ih c₂ _ _ hp
      exact ⟨m, CPath.oF fs c₁' m h1, h2⟩
    | sgF s fs cc bb htf hp =>
      obtain ⟨m, h1, h2⟩ := ih c₂ _ _ hp
      exact ⟨m, CPath.sgF s fs c₁' m htf h1, h2⟩
    | cF cc bb hp =>
      obtain ⟨m, h1, h2⟩ := ih c₂ _ _ hp
      exact ⟨m, CPath.cF c₁' m h1, h2⟩

theorem CPath_finPart : ∀ (fs : List (List Char)), (∀ p ∈ fs, tagFreeB p = true) →
    CPath (Ph.pF, [], fs) (fs.map Itm.sg ++ [Itm.cF]) (Ph.pE, [], []) := by
  intro fs
  induction fs with
  | nil =>
    intro _
    exact CPath.cF [] _ (CPath.nil _)
  | cons f fs' ih =>
    intro h
    exact CPath.sgF f fs' _ _ (h f (List.mem_cons_self f fs'))
      (ih (fun p hp => h p (List.mem_cons_of_mem f hp)))

theorem CPath_thinkPart : ∀ (rs : List (List Char)), ∀ (fs : List (List Char)),
    (∀ p ∈ rs, tagFreeB p = true) → (∀ p ∈ fs, tagFreeB p = true) →
    CPath (Ph.pT, rs, fs)
      (rs.map Itm.sg ++ (Itm.cT :: Itm.oF :: (fs.map Itm.sg ++ [Itm.cF])))
      (Ph.pE, [], []) := by
  intro rs
  induction rs with
  | nil =>
    intro fs _ hf
    exact CPath.cT fs _ _ (CPath.oF fs _ _ (CPath_finPart fs hf))
  | cons r rs' ih =>
    intro fs hr hf
    exact CPath.sgT r rs' fs _ _ (hr r (List.mem_cons_self _ _))
      (ih fs (fun p hp => hr p (List.mem_cons_of_mem r hp)) hf)

theorem itemsOf_path (rs fs : List (List Char)) (hr : ∀ p ∈ rs, tagFreeB p = true)
    (hf : ∀ p ∈ fs, tagFreeB p = true) :
    CPath (Ph.p0, rs, fs) (itemsOf rs fs) (Ph.pE, [], []) :=
  CPath.oT rs fs _ _ (CPath_thinkPart rs fs hr hf)

theorem repair_eval_noT (t : List Char) (hT : srch matchThinkOpenRep t = none) :
    repairMalformedReasoningTags t = t := by
  unfold repairMalformedReasoningTags
  rw [hT]
  split_ifs
  · rfl
  · rfl

theorem repair_eval_noF (t : List Char) (ti tl : Nat)
    (hT : srch matchThinkOpenRep t = some (ti, tl))
    (hF : srch matchFinalOpenRep t = none) :
    repairMalformedReasoningTags t = t := by
  unfold repairMalformedReasoningTags
  rw [hT, hF]
  split_ifs
  · rfl
  · rfl

theorem repair_eval_cl (t : List Char) (ti tl fi fl : Nat)
    (hT : srch matchThinkOpenRep t = some (ti, tl))
    (hF : srch matchFinalOpenRep t = some (fi, fl))
    (hne : ¬ t = []) (hord : ¬ fi ≤ ti)
    (hcl : (srch matchThinkCloseRep ((t.drop (ti + tl)).take (fi - (ti + tl)))).isSome
      = true) :
    repairMalformedReasoningTags t = t := by
  unfold repairMalformedReasoningTags
  rw [if_neg hne, hT, hF]
  dsimp only
  rw [if_neg hord, if_pos hcl]

theorem itemMsOf_ne_nil (itemM : Itm → Option Bool) :
    ∀ (c : List Itm) (i : Nat) (it : Itm), it ∈ c → itemM it ≠ none →
      itemMsOf itemM i c ≠ [] := by
  intro c
  induction c with
  | nil => intro i it h _; simp at h
  | cons x c' ih =>
    intro i it hm hM
    rcases List.mem_cons.mp hm with rfl | h
    · cases hMx : itemM it with
      | none => exact absurd hMx hM
      | some b =>
        rw [itemMsOf, hMx]
        simp
    · cases hMx : itemM x with
      | some b =>
        rw [itemMsOf, hMx]
        simp
      | none =>
        rw [itemMsOf, hMx]
        exact ih _ it h hM

theorem CPath_oT_shape : ∀ (a : Ph × List (List Char) × List (List Char)) (c : List Itm)
    (b : Ph × List (List Char) × List (List Char)), CPath a c b → Itm.oT ∈ c →
    a.1 = Ph.p0 ∧ ∃ c₁, c = Itm.oT :: c₁ := by
  intro a c b path
  induction path with
  | nil a => intro hm; exact absurd hm (List.not_mem_nil _)
  | oT rs fs c b hp ih => intro _; exact ⟨rfl, c, rfl⟩
  | sgT s rs fs c b htf hp ih =>
    intro hm
    rcases List.mem_cons.mp hm with h | h
    · exact Itm.noConfusion h
    · exact absurd (ih h).1 (fun hx => Ph.noConfusion hx)
  | cT fs c b hp ih =>
    intro hm
    rcases List.mem_cons.mp hm with h | h
    · exact Itm.noConfusion h
    · exact absurd (ih h).1 (fun hx => Ph.noConfusion hx)
  | oF fs c b hp ih =>
    intro hm
    rcases List.mem_cons.mp hm with h | h
    · exact Itm.noConfusion h
    · exact absurd (ih h).1 (fun hx => Ph.noConfusion hx)
  | sgF s fs c b htf hp ih =>
    intro hm
    rcases List.mem_cons.mp hm with h | h
    · exact Itm.noConfusion h
    · exact absurd (ih h).1 (fun hx => Ph.noConfusion hx)
  | cF c b hp ih =>
    intro hm
    rcases List.mem_cons.mp hm with h | h
    · exact Itm.noConfusion h
    · exact absurd (ih h).1 (fun hx => Ph.noConfusion hx)

theorem CPath_both_shape : ∀ (a : Ph × List (List Char) × List (List Char)) (c : List Itm)
    (b : Ph × List (List Char) × List (List Char)), CPath a c b → NormC c →
    Itm.oF ∈ c → Itm.oT ∈ c →
    (∃ rest, c = Itm.oT :: Itm.cT :: Itm.oF :: rest) ∨
    (∃ r rest, c = Itm.oT :: Itm.sg r :: Itm.cT :: Itm.oF :: rest) := by
  intro a c b path hnc hmF hmT
  obtain ⟨hph, c₁, hc⟩ := CPath_oT_shape a c b path hmT
  subst hc
  cases path with
  | oT rs fs cc bb hp1 =>
    have hmF1 : Itm.oF ∈ c₁ := by
      rcases List.mem_cons.mp hmF with h | h
      · exact Itm.noConfusion h
      · exact h
    cases hp1 with
    | nil => exact absurd hmF1 (List.not_mem_nil _)
    | sgT s rs2 fs2 cc2 bb2 htf2 hp2 =>
      have hmF2 : Itm.oF ∈ cc2 := by
        rcases List.mem_cons.mp hmF1 with h | h
        · exact Itm.noConfusion h
        · exact h
      cases hp2 with
      | nil => exact absurd hmF2 (List.not_mem_nil _)
      | sgT s3 rs3 fs3 cc3 bb3 htf3 hp3 =>
        exfalso
        have hx : NormC (Itm.sg s :: Itm.sg s3 :: cc3) := hnc
        rcases hx.2.1 with hy | hy
        · exact List.noConfusion hy
        · simp [Itm.isSg] at hy
      | cT fs3 cc3 bb3 hp3 =>
        have hmF3 : Itm.oF ∈ cc3 := by
          rcases List.mem_cons.mp hmF2 with h | h
          · exact Itm.noConfusion h
          · exact h
        cases hp3 with
        | nil => exact absurd hmF3 (List.not_mem_nil _)
        | oF fs4 cc4 bb4 hp4 =>
          right
          exact ⟨s, cc4, rfl⟩
    | cT fs2 cc2 bb2 hp2 =>
      have hmF2 : Itm.oF ∈ cc2 := by
        rcases List.mem_cons.mp hmF1 with h | h
        · exact Itm.noConfusion h
        · exact h
      cases hp2 with
      | nil => exact absurd hmF2 (List.not_mem_nil _)
      | oF fs3 cc3 bb3 hp3 =>
        left
        exact ⟨cc3, rfl⟩

theorem repair_id : ∀ (a : Ph × List (List Char) × List (List Char)) (c : List Itm)
    (b : Ph × List (List Char) × List (List Char)), CPath a c b → NormC c →
    repairMalformedReasoningTags (renL c) = renL c := by
  intro a c b path hnc
  have hsegs : ∀ s, Itm.sg s ∈ c → tagFreeB s = true := path_segs_tagFree a c b path
  have hscanT := scanAll_tor_c c hnc hsegs
  have hscanF := scanAll_for_c c hnc hsegs
  by_cases hmT : Itm.oT ∈ c
  · by_cases hmF : Itm.oF ∈ c
    · rcases CPath_both_shape a c b path hnc hmF hmT with ⟨rest, hc⟩ | ⟨r, rest, hc⟩
      · subst hc
        have hsrT : srch matchThinkOpenRep (renL (Itm.oT :: Itm.cT :: Itm.oF :: rest)) =
            some (0, 7) := by
          rw [srch_eq, hscanT]
          rfl
        have hsrF : srch matchFinalOpenRep (renL (Itm.oT :: Itm.cT :: Itm.oF :: rest)) =
            some (15, 7) := by
          rw [srch_eq, hscanF]
          rfl
        have hne : ¬ renL (Itm.oT :: Itm.cT :: Itm.oF :: rest) = [] := by
          rw [renL_cons]
          intro hcon
          rcases List.append_eq_nil.mp hcon with ⟨h1, _⟩
          exact absurd h1 (by decide)
        have ht : renL (Itm.oT :: Itm.cT :: Itm.oF :: rest) =
            "<think>".data ++ ("</think>".data ++ renL (Itm.oF :: rest)) := by
          rw [renL_cons, renL_cons]
          rfl
        have hcl : (srch matchThinkCloseRep
            (((renL (Itm.oT :: Itm.cT :: Itm.oF :: rest)).drop (0 + 7)).take
              (15 - (0 + 7)))).isSome = true := by
          rw [ht, List.drop_left' (show ("<think>".data).length = 0 + 7 from rfl)]
          rw [List.take_left' (show ("</think>".data).length = 15 - (0 + 7) from rfl)]
          decide
        exact repair_eval_cl _ 0 7 15 7 hsrT hsrF hne (by decide) hcl
      · subst hc
        have hsrT : srch matchThinkOpenRep
            (renL (Itm.oT :: Itm.sg r :: Itm.cT :: Itm.oF :: rest)) = some (0, 7) := by
          rw [srch_eq, hscanT]
          rfl
        have hsrF : srch matchFinalOpenRep
            (renL (Itm.oT :: Itm.sg r :: Itm.cT :: Itm.oF :: rest)) =
            some (0 + 7 + r.length + 8, 7) := by
          rw [srch_eq, hscanF]
          rfl
        have hne : ¬ renL (Itm.oT :: Itm.sg r :: Itm.cT :: Itm.oF :: rest) = [] := by
          rw [renL_cons]
          intro hcon
          rcases List.append_eq_nil.mp hcon with ⟨h1, _⟩
          exact absurd h1 (by decide)
        have e1 : 0 + 7 + r.length + 8 - (0 + 7) = r.length + 8 := by omega
        have ht : renL (Itm.oT :: Itm.sg r :: Itm.cT :: Itm.oF :: rest) =
            "<think>".data ++ (r ++ ("</think>".data ++ renL (Itm.oF :: rest))) := by
          rw [renL_cons, renL_cons, renL_cons]
          rfl
        have hbet : ((renL (Itm.oT :: Itm.sg r :: Itm.cT :: Itm.oF :: rest)).drop
            (0 + 7)).take (0 + 7 + r.length + 8 - (0 + 7)) = r ++ "</think>".data := by
          rw [ht, List.drop_left' (show ("<think>".data).length = 0 + 7 from rfl), e1]
          rw [List.take_append]
          rw [List.take_left' (show ("</think>".data).length = 8 from rfl)]
        have hx : NormC (Itm.sg r :: Itm.cT :: Itm.oF :: rest) := hnc
        have htfr : tagFreeB r = true := hx.1
        have hnc2 : NormC [Itm.sg r, Itm.cT] := ⟨htfr, Or.inr rfl, trivial⟩
        have hseg2 : ∀ s, Itm.sg s ∈ [Itm.sg r, Itm.cT] → tagFreeB s = true := by
          intro s hs
          rcases List.mem_cons.mp hs with h | h
          · injection h with h'
            rw [h']
            exact htfr
          · rcases List.mem_cons.mp h with h2 | h2
            · exact Itm.noConfusion h2
            · simp at h2
        have hscan2 := scanAll_tcr_c [Itm.sg r, Itm.cT] hnc2 hseg2
        have hren2 : renL [Itm.sg r, Itm.cT] = r ++ "</think>".data := by
          rw [renL_cons, renL_cons, renL_nil, List.append_nil]
          rfl
        have hsr2 : srch matchThinkCloseRep (r ++ "</think>".data) =
            some (0 + r.length, 8) := by
          rw [← hren2, srch_eq, hscan2]
          rfl
        have hcl : (srch matchThinkCloseRep
            (((renL (Itm.oT :: Itm.sg r :: Itm.cT :: Itm.oF :: rest)).drop (0 + 7)).take
              (0 + 7 + r.length + 8 - (0 + 7)))).isSome = true := by
          rw [hbet, hsr2]
          rfl
        exact repair_eval_cl _ 0 7 (0 + 7 + r.length + 8) 7 hsrT hsrF hne (by omega) hcl
    · have hnilF : itemMsOf forItemM 0 c = [] := by
        refine itemMsOf_nil_of forItemM c 0 ?_
        intro it hit
        cases it with
        | oF => exact absurd hit hmF
        | oT => rfl
        | cT => rfl
        | cF => rfl
        | sg s => rfl
      have hsrF : srch matchFinalOpenRep (renL c) = none := by
        rw [srch_eq, hscanF, hnilF]
      have hTne : itemMsOf torItemM 0 c ≠ [] :=
        itemMsOf_ne_nil torItemM c 0 Itm.oT hmT (by simp [torItemM])
      cases hL : itemMsOf torItemM 0 c with
      | nil => exact absurd hL hTne
      | cons m tl =>
        obtain ⟨ti, tl2, b2⟩ := m
        have hsrT : srch matchThinkOpenRep (renL c) = some (ti, tl2) := by
          rw [srch_eq, hscanT, hL]
        exact repair_eval_noF _ ti tl2 hsrT hsrF
  · have hnilT : itemMsOf torItemM 0 c = [] := by
      refine itemMsOf_nil_of torItemM c 0 ?_
      intro it hit
      cases it with
      | oT => exact absurd hit hmT
      | oF => rfl
      | cT => rfl
      | cF => rfl
      | sg s => rfl
    have hsrT : srch matchThinkOpenRep (renL c) = none := by
      rw [srch_eq, hscanT, hnilT]
    exact repair_eval_noT _ hsrT

theorem renL_nil_cases (c : List Itm) (hnc : NormC c) (h : renL c = []) :
    c = [] ∨ c = [Itm.sg []] := by
  cases c with
  | nil => exact Or.inl rfl
  | cons it c₂ =>
    rw [renL_cons] at h
    rcases List.append_eq_nil.mp h with ⟨h1, h2⟩
    cases it with
    | oT => exact absurd h1 (by decide)
    | cT => exact absurd h1 (by decide)
    | oF => exact absurd h1 (by decide)
    | cF => exact absurd h1 (by decide)
    | sg s =>
      have hs : s = [] := h1
      subst hs
      right
      rcases hnc.2.1 with hc | hc
      · rw [hc]
      · exfalso
        cases c₂ with
        | nil => simp at hc
        | cons it2 c₃ =>
          rw [renL_cons] at h2
          rcases List.append_eq_nil.mp h2 with ⟨h3, _⟩
          have hsg2 : Itm.isSg it2 = false := by
            simp [List.head?] at hc
            exact hc
          cases it2 with
          | sg s2 => exact Bool.noConfusion hsg2
          | oT => exact absurd h3 (by decide)
          | cT => exact absurd h3 (by decide)
          | oF => exact absurd h3 (by decide)
          | cF => exact absurd h3 (by decide)

theorem chunk_eval : ∀ (a : Ph × List (List Char) × List (List Char)) (c : List Itm)
    (b : Ph × List (List Char) × List (List Char)), CPath a c b → NormC c →
    ∃ used, a.2.2 = used ++ b.2.2 ∧
      stripBlockTags (renL c) (stOf a.1) = (joinL used, stOf b.1) := by
  intro a c b path hnc
  by_cases hempty : renL c = []
  · rcases renL_nil_cases c hnc hempty with rfl | rfl
    · cases path with
      | nil => exact ⟨[], rfl, rfl⟩
    · cases path with
      | sgT s rs fs cc bb htf hp =>
        cases hp with
        | nil => exact ⟨[], rfl, rfl⟩
      | sgF s fs cc bb htf hp =>
        cases hp with
        | nil => exact ⟨[[]], rfl, rfl⟩
  · obtain ⟨used, hfs, hemit, htfu⟩ := path_emit a c b path hnc
    refine ⟨used, hfs, ?_⟩
    have hsegs : ∀ s, Itm.sg s ∈ c → tagFreeB s = true := path_segs_tagFree a c b path
    unfold stripBlockTags
    rw [if_neg hempty]
    dsimp only
    have hrep : repairMalformedReasoningTags (renL c) = renL c := repair_id a c b path hnc
    rw [hrep]
    have hms1 : scanAll matchThinkTag (renL c) = itemMsOf thinkItemM 0 c :=
      scanAll_think_c c hnc hsegs
    rw [hms1]
    have horph : orphanGo (stOf a.1).thinking none (itemMsOf thinkItemM 0 c) = none :=
      orphanGo_path a c b path 0 none
    rw [horph]
    dsimp only
    rw [hms1]
    have hstrip := stripGo_fold c [] [] (stOf a.1).thinking
    simp only [List.nil_append, List.length_nil] at hstrip
    rw [hstrip]
    dsimp only
    have hncK := path_NormC_keep a c b path hnc
    have hsegK : ∀ s, Itm.sg s ∈ keep (stOf a.1).thinking c → tagFreeB s = true :=
      fun s hs => hsegs s ((keep_sublist c _).subset hs)
    have hms3 : scanAll matchFinalTag (renL (keep (stOf a.1).thinking c)) =
        itemMsOf finalItemM 0 (keep (stOf a.1).thinking c) :=
      scanAll_final_c _ hncK hsegK
    rw [hms3]
    have hfp := path_FPath a c b path
    have hfin := finGo_fold (stOf a.1).final (keep (stOf a.1).thinking c)
      (stOf b.1).final hfp [] [] (stOf a.1).final
    simp only [List.nil_append, List.length_nil] at hfin
    rw [hfin]
    dsimp only
    have hendT : endT (stOf a.1).thinking c = (stOf b.1).thinking := path_endT a c b path
    rw [hendT, hemit]
    cases hev : (stOf a.1).final || hasOF (keep (stOf a.1).thinking c) with
    | false =>
      rw [if_pos (show (!(false : Bool)) = true from rfl)]
      obtain ⟨h1, h2⟩ := Bool.or_eq_false_iff.mp hev
      have hje : joinL used = [] := by
        rw [← hemit, h1]
        exact finEmit_nil_of_noOF _ h2
      rw [hje]
    | true =>
      rw [if_neg (show ¬ (!(true : Bool)) = true from by decide)]
      have hsc : scanAll matchFinalTag (joinL used) = [] :=
        scanAll_tagFree matchFinalTag rfl (joinL used)
          (fun j hj => tagFree_final _ htfu j hj)
      rw [hsc, cleanGo_nil_eq, List.drop_zero, List.nil_append]

theorem processChunks_path : ∀ (css : List (List Itm))
    (a b : Ph × List (List Char) × List (List Char)),
    CPath a css.join b → (∀ c ∈ css, NormC c) →
    ∃ used, a.2.2 = used ++ b.2.2 ∧
      processChunks (stOf a.1) css = (joinL used, stOf b.1) := by
  intro css
  induction css with
  | nil =>
    intro a b h hn
    cases h with
    | nil => exact ⟨[], rfl, rfl⟩
  | cons c css' ih =>
    intro a b h hn
    have hsplit : CPath a (c ++ css'.join) b := h
    obtain ⟨m, h1, h2⟩ := CPath_split c css'.join a b hsplit
    obtain ⟨used₁, hfs₁, heval⟩ := chunk_eval a c m h1 (hn c (List.mem_cons_self _ _))
    obtain ⟨used₂, hfs₂, hrest⟩ := ih m b h2 (fun x hx => hn x (List.mem_cons_of_mem _ hx))
    refine ⟨used₁ ++ used₂, ?_, ?_⟩
    · rw [hfs₁, hfs₂, List.append_assoc]
    · have hstep : processChunks (stOf a.1) (c :: css') =
          ((stripBlockTags (renL c) (stOf a.1)).1 ++
            (processChunks (stripBlockTags (renL c) (stOf a.1)).2 css').1,
           (processChunks (stripBlockTags (renL c) (stOf a.1)).2 css').2) := rfl
      rw [hstep, heval]
      dsimp only
      rw [hrest]
      dsimp only
      rw [joinL_append]

theorem cleanStr_drop (x t : List Char) (h : cleanStr (x ++ t)) : cleanStr t := by
  intro i k
  have hx := h (x.length + i) k
  rw [List.drop_append] at hx
  exact hx

theorem pieces_tagFree : ∀ (ps : List (List Char)), cleanStr (joinL ps) →
    ∀ p ∈ ps, tagFreeB p = true := by
  intro ps
  induction ps with
  | nil => intro _ p hp; simp at hp
  | cons x xs ih =>
    intro h p hp
    rcases List.mem_cons.mp hp with rfl | hp2
    · have hx := h 0 p.length
      rw [List.drop_zero, show joinL (p :: xs) = p ++ joinL xs from rfl,
        List.take_left] at hx
      exact hx
    · refine ih ?_ p hp2
      have hj : cleanStr (x ++ joinL xs) := h
      exact cleanStr_drop x _ hj

theorem cleanB_cleanStr (s : List Char) (h : cleanB s = true) : cleanStr s := by
  intro i k
  have hall := List.all_eq_true.mp h
  by_cases hi : i ≤ s.length
  · by_cases hk : k ≤ s.length
    · exact List.all_eq_true.mp (hall i (List.mem_range.mpr (by omega))) k
        (List.mem_range.mpr (by omega))
    · have hlen : (s.drop i).length ≤ s.length := by
        rw [List.length_drop]
        omega
      have e : (s.drop i).take k = (s.drop i).take s.length := by
        rw [List.take_of_length_le (by omega), List.take_of_length_le (by omega)]
      rw [e]
      exact List.all_eq_true.mp (hall i (List.mem_range.mpr (by omega))) s.length
        (List.mem_range.mpr (by omega))
  · have e : s.drop i = [] := List.drop_eq_nil_of_le (by omega)
    rw [e, List.take_nil]
    decide

/-- C1 counterexample: the char-level chunking invariance fails when a chunk
boundary cuts a tag marker.  Splitting the well-formed logical text
`<think>r</think><final>Hi</final>` in the middle of its `<final>` tag makes
the enforcement-mode scanner emit nothing, while the unsplit text yields
`Hi`. -/
theorem spec_C1_counterexample :
    "<think>r</think><fin".data ++ "al>Hi</final>".data =
      "<think>r</think><final>Hi</final>".data ∧
    (processStr ⟨false, false⟩ ["<think>r</think><final>Hi</final>".data]).1 =
      "Hi".data ∧
    (processStr ⟨false, false⟩
      ["<think>r</think><fin".data, "al>Hi</final>".data]).1 = [] ∧
    ([] : List Char) ≠ "Hi".data := by
  refine ⟨by decide, by decide, by decide, by decide⟩

/-- C1 (amended): chunking invariance holds at tag-marker granularity.  For a
well-formed logical text `<think> r </think><final> f </final>` whose
reasoning `r` and reply `f` contain no tag-like substring (every contiguous
substring is tag-free), and for every split of its item sequence into
consecutive chunks in which no boundary cuts a tag marker (each chunk is a
normalized item list), feeding the chunks through the enforcement-mode
scanner from the initial state yields exactly the reply `f` as concatenated
output and returns the state to `{thinking := false, final := false}`;
in particular no character of the reasoning is ever emitted. -/
theorem spec_C1_chunkingInvariance (rs fs : List (List Char)) (css : List (List Itm))
    (hr : cleanStr (joinL rs)) (hf : cleanStr (joinL fs))
    (hsplit : css.join = itemsOf rs fs) (hnc : ∀ c ∈ css, NormC c) :
    processChunks ⟨false, false⟩ css = (joinL fs, ⟨false, false⟩) := by
  have hrp := pieces_tagFree rs hr
  have hfp := pieces_tagFree fs hf
  have hpath : CPath (Ph.p0, rs, fs) css.join (Ph.pE, [], []) := by
    rw [hsplit]
    exact itemsOf_path rs fs hrp hfp
  obtain ⟨used, hfs2, hproc⟩ :=
    processChunks_path css (Ph.p0, rs, fs) (Ph.pE, [], []) hpath hnc
  have hused : used = fs := by
    have hx : fs = used ++ [] := hfs2
    rw [List.append_nil] at hx
    exact hx.symm
  rw [hused] at hproc
  exact hproc

theorem spec_C1_witness :
    processChunks ⟨false, false⟩
      [[Itm.oT], [Itm.sg "r".data, Itm.cT, Itm.oF], [Itm.sg "Hi".data, Itm.cF]] =
      (joinL ["Hi".data], ⟨false, false⟩) := by
  refine spec_C1_chunkingInvariance ["r".data] ["Hi".data]
    [[Itm.oT], [Itm.sg "r".data, Itm.cT, Itm.oF], [Itm.sg "Hi".data, Itm.cF]]
    (cleanB_cleanStr _ (by decide)) (cleanB_cleanStr _ (by decide)) (by decide) ?_
  intro c hc
  simp only [List.mem_cons, List.mem_singleton] at hc
  rcases hc with rfl | rfl | rfl | hfalse
  · exact trivial
  · exact ⟨by decide, Or.inr rfl, trivial⟩
  · exact ⟨by decide, Or.inr rfl, trivial⟩
  · exact absurd hfalse (by simp)

theorem orphanGo_closes : ∀ (closes rest : List (Nat × Nat × Bool)) (acc : Option Nat),
    (∀ m ∈ closes, m.2.2 = true) →
    (rest = [] ∨ ∃ i2 l2 tl, rest = (i2, l2, false) :: tl) →
    orphanGo false acc (closes ++ rest) =
      match closes.getLast? with
      | some m => some (m.1 + m.2.1)
      | none => acc := by
  intro closes
  induction closes with
  | nil =>
    intro rest acc _ hrest
    rcases hrest with rfl | ⟨i2, l2, tl, rfl⟩
    · rfl
    · rw [List.nil_append, orphanGo_cons_eq]
      have h1 : (if (false : Bool) then false else true) = true := rfl
      have h2 : (if (false : Bool) ∧ !false then some (i2 + l2) else acc) = acc := by simp
      rw [h1, h2]
      exact orphanGo_true tl acc
  | cons m closes' ih =>
    intro rest acc hcl hrest
    obtain ⟨i, l, b⟩ := m
    have hb : b = true := hcl _ (List.mem_cons_self _ _)
    subst hb
    rw [List.cons_append, orphanGo_cons_eq]
    have h1 : (if (true : Bool) then false else true) = false := rfl
    have h2 : (if (true : Bool) ∧ !false then some (i + l) else acc) = some (i + l) := by
      simp
    rw [h1, h2]
    rw [ih rest (some (i + l)) (fun x hx => hcl x (List.mem_cons_of_mem _ hx)) hrest]
    cases closes' with
    | nil => rfl
    | cons y ys =>
      rw [List.getLast?_cons_cons]
      cases hL : (y :: ys).getLast? with
      | none => exact absurd hL (by simp)
      | some m => rfl

/-- C7 counterexample: with carried-over `state.thinking = true` the orphan
rule does NOT fire — a bare `</think>` simply closes the carried-over span
and the text before it is kept ("A" survives).  The discard-before-the-last-
orphaned-close behavior the claim describes occurs exactly when the
carried-over `state.thinking` is false. -/
theorem spec_C7_counterexample :
    (stripBlockTags
      "x</think><final>A</final>y</think><final>B</final>".data ⟨true, false⟩).1 =
      "AB".data ∧
    (stripBlockTags
      "x</think><final>A</final>y</think><final>B</final>".data ⟨false, false⟩).1 =
      "B".data ∧
    "AB".data ≠ "B".data := by
  refine ⟨by decide, by decide, by decide⟩

/-- C7 (amended): in the thinking pass, `sawOpen` starts from the
carried-over `state.thinking`.  If `state.thinking` is TRUE no close tag is
ever treated as orphaned (the pass returns the accumulator unchanged); a
close tag with no preceding open in the chunk is orphaned exactly when
`state.thinking` is FALSE, and the pass then returns the end position
(index + length) of the LAST close in the leading run of opens-free closes —
everything before that position is discarded by the scanner. -/
theorem spec_C7_orphanRule :
    (∀ (ms : List (Nat × Nat × Bool)) (acc : Option Nat), orphanGo true acc ms = acc) ∧
    ∀ (closes rest : List (Nat × Nat × Bool)),
      (∀ m ∈ closes, m.2.2 = true) →
      (rest = [] ∨ ∃ i2 l2 tl, rest = (i2, l2, false) :: tl) →
      orphanGo false none (closes ++ rest) =
        (closes.getLast?).map (fun m => m.1 + m.2.1) := by
  refine ⟨fun ms acc => orphanGo_true ms acc, ?_⟩
  intro closes rest hcl hrest
  rw [orphanGo_closes closes rest none hcl hrest]
  cases closes.getLast? with
  | none => rfl
  | some m => rfl

theorem spec_C7_witness :
    orphanGo true none [(1, 8, true), (26, 8, true)] = none ∧
    orphanGo false none ([(1, 8, true), (26, 8, true)] ++ []) = some 34 := by
  refine ⟨spec_C7_orphanRule.1 [(1, 8, true), (26, 8, true)] none, ?_⟩
  rw [spec_C7_orphanRule.2 [(1, 8, true), (26, 8, true)] [] (by decide) (Or.inl rfl)]
  rfl
